import Mathlib

/-!
Verification of the quote anchoring and highlight-reconstruction engine of the
Reading-Companion browser extension (content script in `src/popup.js`, background
message handlers in `src/background.js`).

Modelling conventions (shallow embedding):
* JS strings are modelled as Lean `String` (a structure over `List Char`); the
  character-level operations (`trim`, `toLowerCase`, `slice`, `indexOf`) are
  modelled on `List Char`.  `Char.toLower` only lowers ASCII letters, matching
  `String.prototype.toLowerCase` on ASCII text.
* The DOM body is modelled as a list of blocks; a block is one element holding a
  list of sibling nodes (`Seg`): bare text nodes and `span.rc-highlight` markers
  (whose single text-node child carries the marker's text).  The tree walker's
  document order is the flattening of that list.
* `isSkippableNode` (the `parent.closest` checks) becomes a boolean: a text node
  is skippable when its block is a script/style/form-control element
  (`Block.skippable`) or when it sits inside a highlight marker.
* Numeric DOM quantities (scroll offsets, heights) are modelled as rationals;
  `Math.round` is Mathlib's `round` (round half up, as in JS).
* Asynchronous message round-trips (`chrome.runtime.sendMessage`) become
  explicit parameters: the fetched value is passed in as an `Option`, `none`
  standing for a failed / not-ok response (the code catches all exceptions).
-/

namespace ReadingCompanion

/-! ## Character-list primitives (JS string operations) -/

/-- Models `String.prototype.trim` (drop leading and trailing whitespace). -/
def trimChars (l : List Char) : List Char :=
  ((l.dropWhile Char.isWhitespace).reverse.dropWhile Char.isWhitespace).reverse

/-- Models `String.prototype.trim` at the `String` level. -/
def jsTrim (s : String) : String := ⟨trimChars s.data⟩

/-- Models `String.prototype.toLowerCase` (ASCII). -/
def lowerChars (l : List Char) : List Char := l.map Char.toLower

/-- Source `commonPrefixLength(a, b)` (popup.js:1555): length of the longest
common prefix of two strings. -/
def commonPrefixLength : List Char → List Char → Nat
  | a :: as, b :: bs => if a = b then commonPrefixLength as bs + 1 else 0
  | _, _ => 0

/-- Source `commonSuffixLength(a, b)` (popup.js:1546): it walks the two strings
from their last characters, which is the common prefix of the reversals. -/
def commonSuffixLength (a b : List Char) : Nat :=
  commonPrefixLength a.reverse b.reverse

/-! ## The Locator: `findBestMatchInDocument` (popup.js:1564) -/

/-- One text node as seen by the tree walker: its `nodeValue` and whether
`isSkippableNode` (popup.js:1485) holds for it. -/
structure TextNode where
  value : String
  skippable : Bool
deriving DecidableEq, Repr

/-- Source locator result `{ node, start, end }`: the text node (identified by
its position in the walk, i.e. the value of the safety counter when it was
visited), and the start/end offsets of the matched substring. -/
structure Match where
  node : Nat
  start : Nat
  «end» : Nat
deriving DecidableEq, Repr

/-- Indices of the case-already-folded needle in a node value, in increasing
order, mirroring the source's inner loop: `idx = lower.indexOf(needleLower,
fromIndex)` followed by `fromIndex = idx + Math.max(1, needleLower.length)`
(popup.js:1588-1620), so after a hit the scan resumes right after the matched
span (the needle here is at least 3 characters long). -/
def occListAux (pat : List Char) : Nat → List Char → Nat → List Nat
  | 0, _, _ => []
  | _ + 1, [], _ => []
  | fuel + 1, c :: rest, i =>
      if pat.isPrefixOf (c :: rest) then
        i :: occListAux pat fuel (rest.drop (pat.length - 1)) (i + pat.length)
      else
        occListAux pat fuel rest (i + 1)

/-- Entry point: the loop runs at most `hay.length` times, since every
iteration advances the scan position by at least one character. -/
def occList (pat hay : List Char) (i : Nat) : List Nat :=
  occListAux pat hay.length hay i

/-- Context score of one occurrence (popup.js:1598-1608): for each nonempty
context string, the common suffix/prefix length with the text before/after the
occurrence, plus a bonus of 50 for an exact trailing/leading match. -/
def occScore (before after pre post : List Char) : Nat :=
  (if before = [] then 0
   else commonSuffixLength pre before + (if before.isSuffixOf pre then 50 else 0)) +
  (if after = [] then 0
   else commonPrefixLength post after + (if after.isPrefixOf post then 50 else 0))

/-- The early-exit condition (popup.js:1614): both context strings are nonempty
and both are exact matches. -/
def perfectHit (before after pre post : List Char) : Bool :=
  (!before.isEmpty && before.isSuffixOf pre) && (!after.isEmpty && after.isPrefixOf post)

/-- One scored occurrence of the needle, together with the text before and
after it inside the (lowercased) node value, as computed by the source
(`pre = lower.slice(0, idx)`, `post = lower.slice(end)`). -/
structure Occ where
  m : Match
  pre : List Char
  post : List Char
  score : Nat
  perfect : Bool
deriving DecidableEq, Repr

/-- The occurrences of the needle scored inside one visited text node: nothing
for a skippable or too-short node, otherwise the first 250 occurrences (the
source breaks the inner loop once `matchCounter > 250`). -/
def nodeOccs (needleLower before after : List Char) (i : Nat) (n : TextNode) : List Occ :=
  if n.skippable ∨ n.value.data.length < 3 then []
  else
    let lower := lowerChars n.value.data
    ((occList needleLower lower 0).take 250).map (fun idx =>
      let pre := lower.take idx
      let post := lower.drop (idx + needleLower.length)
      { m := ⟨i, idx, idx + needleLower.length⟩
        pre := pre
        post := post
        score := occScore before after pre post
        perfect := perfectHit before after pre post })

/-- State of the best-match tracking: current best, its score (initially -1),
and whether the walk ended early on a perfect context hit. -/
structure ScanState where
  best : Option Match
  bestScore : Int
  early : Bool
deriving DecidableEq, Repr

/-- Folding the tracking loop over the scored occurrences of one node
(popup.js:1610-1617): a strictly greater score replaces the best, and a perfect
context hit ends the whole walk at once. -/
def scanOccs : List Occ → Option Match → Int → ScanState
  | [], best, bestScore => ⟨best, bestScore, false⟩
  | o :: rest, best, bestScore =>
      if bestScore < (o.score : Int) then
        if o.perfect then ⟨some o.m, (o.score : Int), true⟩
        else scanOccs rest (some o.m) (o.score : Int)
      else scanOccs rest best bestScore

/-- The tree walk (popup.js:1577-1622): `i` is the safety counter; once
25000 nodes have been visited the walk stops and the best match so far is
returned; a perfect context hit inside a node also ends the walk. -/
def walkNodes (needleLower before after : List Char) :
    List TextNode → Nat → Option Match → Int → Option Match
  | [], _, best, _ => best
  | n :: rest, i, best, bestScore =>
      if 25000 ≤ i then best
      else
        let st := scanOccs (nodeOccs needleLower before after i n) best bestScore
        if st.early then st.best
        else walkNodes needleLower before after rest (i + 1) st.best st.bestScore

/-- A stored quote / locator entry: the source reads `entry.id`, `entry.text`,
`entry.contextBefore`, `entry.contextAfter`, defaulting each to the empty
string. -/
structure Entry where
  id : String
  text : String
  contextBefore : String
  contextAfter : String
deriving DecidableEq, Repr

/-- Source `findBestMatchInDocument(entry)` (popup.js:1564): trims the needle,
rejects needles shorter than 3 characters, lowercases needle and contexts, and
walks the document's text nodes (given here as the walker's document-order
list). -/
def findBestMatchInDocument (e : Entry) (nodes : List TextNode) : Option Match :=
  let needle := trimChars e.text.data
  if needle.length < 3 then none
  else
    walkNodes (lowerChars needle) (lowerChars e.contextBefore.data)
      (lowerChars e.contextAfter.data) nodes 0 none (-1)

/-! ## Specification-side view of the scan

The following definitions restate the walk in the spec's vocabulary: the list
of all scored occurrences the walk may consider (in document order, with both
caps applied), and the selection rule "track the single highest-scoring
occurrence, replacing the current best only on a strictly greater score". -/

/-- All occurrences considered by the walk, in document order: the first 25000
text nodes each contribute their (at most 250) scored occurrences. -/
def allOccsFrom (needleLower before after : List Char) : List TextNode → Nat → List Occ
  | [], _ => []
  | n :: rest, i =>
      if 25000 ≤ i then []
      else nodeOccs needleLower before after i n ++ allOccsFrom needleLower before after rest (i + 1)

/-- The considered occurrences for an entry, from the top of the document. -/
def allOccs (e : Entry) (nodes : List TextNode) : List Occ :=
  allOccsFrom (lowerChars (trimChars e.text.data)) (lowerChars e.contextBefore.data)
    (lowerChars e.contextAfter.data) nodes 0

/-- Specification selection rule, folded over a list of occurrences: replace
the current best exactly when the score is strictly greater. -/
def selectAux : List Occ → Option Match → Int → Option Match × Int
  | [], best, bestScore => (best, bestScore)
  | o :: rest, best, bestScore =>
      if bestScore < (o.score : Int) then selectAux rest (some o.m) (o.score : Int)
      else selectAux rest best bestScore

/-- Specification selection rule from the initial state (no best, score -1). -/
def selectBest (l : List Occ) : Option Match := (selectAux l none (-1)).1

/-- Largest context score a single side can contribute. -/
def sideBound (ctx : List Char) : Nat := if ctx = [] then 0 else ctx.length + 50

/-- Largest score any occurrence can attain for the given context strings. -/
def scoreBound (before after : List Char) : Nat := sideBound before + sideBound after

/-- The claim-level predicate "the occurrence is immediately preceded by text
ending with contextBefore and immediately followed by text starting with
contextAfter" (on the lowercased strings, as the source compares them). -/
def contextMatches (before after : List Char) (o : Occ) : Bool :=
  before.isSuffixOf o.pre && after.isPrefixOf o.post

/-! ## Arithmetic facts about the context score -/

theorem commonPrefixLength_le_right (a b : List Char) : commonPrefixLength a b ≤ b.length := by
  induction a generalizing b with
  | nil => cases b <;> simp [commonPrefixLength]
  | cons x xs ih =>
      cases b with
      | nil => simp [commonPrefixLength]
      | cons y ys =>
          simp only [commonPrefixLength]
          split
          · simpa [Nat.succ_le_succ_iff] using ih ys
          · simp

theorem commonPrefixLength_of_isPrefixOf {b a : List Char} (h : b.isPrefixOf a = true) :
    commonPrefixLength a b = b.length := by
  induction b generalizing a with
  | nil => cases a <;> simp [commonPrefixLength]
  | cons y ys ih =>
      cases a with
      | nil => simp [List.isPrefixOf] at h
      | cons x xs =>
          simp only [List.isPrefixOf, Bool.and_eq_true, beq_iff_eq] at h
          simp [commonPrefixLength, h.1.symm, ih h.2]

theorem commonSuffixLength_le (pre b : List Char) : commonSuffixLength pre b ≤ b.length := by
  simpa [commonSuffixLength] using commonPrefixLength_le_right pre.reverse b.reverse

theorem commonSuffixLength_of_isSuffixOf {b pre : List Char} (h : b.isSuffixOf pre = true) :
    commonSuffixLength pre b = b.length := by
  have : b.reverse.isPrefixOf pre.reverse = true := by
    simpa [List.isSuffixOf] using h
  simpa [commonSuffixLength] using commonPrefixLength_of_isPrefixOf this

theorem occScore_le_scoreBound (before after pre post : List Char) :
    occScore before after pre post ≤ scoreBound before after := by
  have h1 := commonSuffixLength_le pre before
  have h2 := commonPrefixLength_le_right post after
  unfold occScore scoreBound sideBound
  by_cases hb : before = [] <;> by_cases ha : after = [] <;>
    by_cases hs : before.isSuffixOf pre <;> by_cases hp : after.isPrefixOf post <;>
    simp [hb, ha, hs, hp] <;> omega

theorem occScore_eq_scoreBound_iff (before after pre post : List Char) :
    occScore before after pre post = scoreBound before after
      ↔ (before.isSuffixOf pre = true ∧ after.isPrefixOf post = true) := by
  have h1 := commonSuffixLength_le pre before
  have h2 := commonPrefixLength_le_right post after
  constructor
  · intro h
    unfold occScore scoreBound sideBound at h
    constructor
    · by_cases hb : before = []
      · simp [hb, List.isSuffixOf, List.isPrefixOf]
      · by_cases hs : before.isSuffixOf pre
        · exact hs
        · exfalso
          simp only [hb, if_false, hs] at h
          by_cases ha : after = [] <;> by_cases hp : after.isPrefixOf post <;>
            simp_all <;> omega
    · by_cases ha : after = []
      · simp [ha, List.isPrefixOf]
      · by_cases hp : after.isPrefixOf post
        · exact hp
        · exfalso
          simp only [ha, if_false, hp] at h
          by_cases hb : before = [] <;> by_cases hs : before.isSuffixOf pre <;>
            simp_all <;> omega
  · rintro ⟨hs, hp⟩
    unfold occScore scoreBound sideBound
    have e1 := commonSuffixLength_of_isSuffixOf hs
    have e2 := commonPrefixLength_of_isPrefixOf hp
    by_cases hb : before = [] <;> by_cases ha : after = [] <;>
      simp [hb, ha, hs, hp, e1, e2]

theorem perfectHit_eq_true_iff (before after pre post : List Char) :
    perfectHit before after pre post = true
      ↔ (before ≠ [] ∧ before.isSuffixOf pre = true
          ∧ after ≠ [] ∧ after.isPrefixOf post = true) := by
  simp [perfectHit, Bool.and_eq_true, List.isEmpty_iff, and_assoc]

/-! ## The walk computes the specification selection rule -/

theorem selectAux_append (l1 l2 : List Occ) (best : Option Match) (bs : Int) :
    selectAux (l1 ++ l2) best bs
      = selectAux l2 (selectAux l1 best bs).1 (selectAux l1 best bs).2 := by
  induction l1 generalizing best bs with
  | nil => simp [selectAux]
  | cons o rest ih =>
      simp only [List.cons_append, selectAux]
      split <;> exact ih _ _

theorem selectAux_stagnate {B : Nat} {l : List Occ} (hl : ∀ o ∈ l, o.score ≤ B)
    (best : Option Match) : selectAux l best (B : Int) = (best, (B : Int)) := by
  induction l with
  | nil => simp [selectAux]
  | cons o rest ih =>
      have ho := hl o (List.mem_cons_self o rest)
      have : ¬ ((B : Int) < (o.score : Int)) := by exact_mod_cast Nat.not_lt.mpr ho
      simp only [selectAux, if_neg this]
      exact ih (fun x hx => hl x (List.mem_cons_of_mem _ hx))

theorem scanOccs_selectAux {B : Nat} {l : List Occ}
    (hl : ∀ o ∈ l, o.score ≤ B ∧ (o.perfect = true → o.score = B))
    (best : Option Match) (bs : Int) :
    selectAux l best bs = ((scanOccs l best bs).best, (scanOccs l best bs).bestScore)
      ∧ ((scanOccs l best bs).early = true → (scanOccs l best bs).bestScore = (B : Int)) := by
  induction l generalizing best bs with
  | nil => simp [selectAux, scanOccs]
  | cons o rest ih =>
      have ho := hl o (List.mem_cons_self o rest)
      have hrest : ∀ x ∈ rest, x.score ≤ B ∧ (x.perfect = true → x.score = B) :=
        fun x hx => hl x (List.mem_cons_of_mem _ hx)
      by_cases hlt : bs < (o.score : Int)
      · by_cases hp : o.perfect = true
        · have hB : o.score = B := ho.2 hp
          simp only [selectAux, scanOccs, if_pos hlt, hp, if_pos rfl]
          subst hB
          refine ⟨?_, fun _ => rfl⟩
          exact selectAux_stagnate (fun x hx => (hrest x hx).1) (some o.m)
        · simp only [selectAux, scanOccs, if_pos hlt, hp]
          simpa using ih hrest (some o.m) (o.score : Int)
      · simp only [selectAux, scanOccs, if_neg hlt]
        exact ih hrest best bs

theorem nodeOccs_mem {needleLower before after : List Char} {i : Nat} {n : TextNode} {o : Occ}
    (h : o ∈ nodeOccs needleLower before after i n) :
    o.score = occScore before after o.pre o.post
      ∧ o.perfect = perfectHit before after o.pre o.post
      ∧ o.m.node = i ∧ o.m.«end» = o.m.start + needleLower.length
      ∧ n.skippable = false := by
  unfold nodeOccs at h
  split at h
  · simp at h
  · next hcond =>
    simp only [List.mem_map] at h
    obtain ⟨idx, _, rfl⟩ := h
    refine ⟨rfl, rfl, rfl, rfl, ?_⟩
    cases hsk : n.skippable
    · rfl
    · exact absurd (Or.inl hsk) hcond

theorem nodeOccs_bound {needleLower before after : List Char} {i : Nat} {n : TextNode} :
    ∀ o ∈ nodeOccs needleLower before after i n,
      o.score ≤ scoreBound before after
        ∧ (o.perfect = true → o.score = scoreBound before after) := by
  intro o h
  obtain ⟨hsc, hpf, -, -, -⟩ := nodeOccs_mem h
  constructor
  · exact hsc ▸ occScore_le_scoreBound before after o.pre o.post
  · intro hp
    rw [hsc]
    rw [hpf] at hp
    obtain ⟨-, h1, -, h2⟩ := (perfectHit_eq_true_iff before after o.pre o.post).mp hp
    exact (occScore_eq_scoreBound_iff before after o.pre o.post).mpr ⟨h1, h2⟩

theorem allOccsFrom_bound {needleLower before after : List Char} {nodes : List TextNode} :
    ∀ (i : Nat), ∀ o ∈ allOccsFrom needleLower before after nodes i,
      o.score ≤ scoreBound before after
        ∧ (o.perfect = true → o.score = scoreBound before after) := by
  induction nodes with
  | nil => intro i o h; simp [allOccsFrom] at h
  | cons n rest ih =>
      intro i o h
      unfold allOccsFrom at h
      split at h
      · simp at h
      · rcases List.mem_append.mp h with h | h
        · exact nodeOccs_bound o h
        · exact ih (i + 1) o h

theorem walkNodes_eq_selectAux (needleLower before after : List Char) (nodes : List TextNode) :
    ∀ (i : Nat) (best : Option Match) (bs : Int),
      walkNodes needleLower before after nodes i best bs
        = (selectAux (allOccsFrom needleLower before after nodes i) best bs).1 := by
  induction nodes with
  | nil => intro i best bs; simp [walkNodes, allOccsFrom, selectAux]
  | cons n rest ih =>
      intro i best bs
      by_cases h25 : 25000 ≤ i
      · simp [walkNodes, allOccsFrom, if_pos h25, selectAux]
      · have hb := @nodeOccs_bound needleLower before after i n
        have hsel := scanOccs_selectAux hb best bs
        simp only [walkNodes, allOccsFrom, if_neg h25]
        rw [selectAux_append, hsel.1]
        by_cases he : (scanOccs (nodeOccs needleLower before after i n) best bs).early = true
        · simp only [he, if_true]
          rw [hsel.2 he]
          rw [selectAux_stagnate (fun x hx => (allOccsFrom_bound _ x hx).1) _]
        · simp only [he, if_false]
          exact ih (i + 1) _ _

theorem findBest_eq_selectBest (e : Entry) (nodes : List TextNode)
    (h : 3 ≤ (trimChars e.text.data).length) :
    findBestMatchInDocument e nodes = selectBest (allOccs e nodes) := by
  unfold findBestMatchInDocument selectBest allOccs
  rw [if_neg (Nat.not_lt.mpr h)]
  exact walkNodes_eq_selectAux _ _ _ _ _ _ _

/-! ## Further facts about the selection rule -/

theorem selectAux_snd_lt {s : Int} {l : List Occ} (hl : ∀ o ∈ l, (o.score : Int) < s) :
    ∀ (best : Option Match) (bs : Int), bs < s → (selectAux l best bs).2 < s := by
  induction l with
  | nil => intro best bs h; simpa [selectAux] using h
  | cons o rest ih =>
      intro best bs h
      have ho := hl o (List.mem_cons_self o rest)
      have hrest : ∀ x ∈ rest, (x.score : Int) < s :=
        fun x hx => hl x (List.mem_cons_of_mem _ hx)
      simp only [selectAux]
      split
      · exact ih hrest _ _ ho
      · exact ih hrest _ _ h

theorem selectBest_firstMax (l1 l2 : List Occ) (o : Occ)
    (h1 : ∀ x ∈ l1, x.score < o.score) (h2 : ∀ x ∈ l2, x.score ≤ o.score) :
    selectBest (l1 ++ o :: l2) = some o.m := by
  unfold selectBest
  rw [selectAux_append]
  have hlt : (selectAux l1 none (-1)).2 < (o.score : Int) := by
    refine selectAux_snd_lt (fun x hx => ?_) none (-1) ?_
    · exact_mod_cast h1 x hx
    · have : (0 : Int) ≤ (o.score : Int) := Int.natCast_nonneg _
      omega
  simp only [selectAux, if_pos hlt]
  rw [selectAux_stagnate h2]

theorem selectAux_snd_reach {B' : Nat} : ∀ (l : List Occ) (best : Option Match) (bs : Int),
    (∀ x ∈ l, x.score ≤ B') → (bs = (B' : Int) ∨ ∃ x ∈ l, x.score = B') → bs ≤ (B' : Int) →
    (selectAux l best bs).2 = (B' : Int) := by
  intro l
  induction l with
  | nil =>
      intro best bs _ hd _
      rcases hd with h | ⟨x, hx, _⟩
      · simpa [selectAux] using h
      · simp at hx
  | cons o rest ih =>
      intro best bs hle hd hbs
      have ho := hle o (List.mem_cons_self o rest)
      have hrest : ∀ x ∈ rest, x.score ≤ B' := fun x hx => hle x (List.mem_cons_of_mem _ hx)
      simp only [selectAux]
      by_cases hlt : bs < (o.score : Int)
      · rw [if_pos hlt]
        by_cases hoB : o.score = B'
        · exact ih (some o.m) _ hrest (Or.inl (by exact_mod_cast hoB)) (by exact_mod_cast ho)
        · refine ih (some o.m) _ hrest ?_ (by exact_mod_cast ho)
          right
          rcases hd with h | ⟨x, hx, hxB⟩
          · exfalso
            rw [h] at hlt
            exact absurd (by exact_mod_cast hlt) (Nat.not_lt.mpr ho)
          · rcases List.mem_cons.mp hx with rfl | hx
            · exact absurd hxB hoB
            · exact ⟨x, hx, hxB⟩
      · rw [if_neg hlt]
        refine ih best bs hrest ?_ hbs
        rcases hd with h | ⟨x, hx, hxB⟩
        · exact Or.inl h
        · rcases List.mem_cons.mp hx with rfl | hx
          · left
            have h1 : (x.score : Int) ≤ bs := Int.not_lt.mp hlt
            have h2 : (B' : Int) ≤ bs := by rw [← hxB]; exact_mod_cast h1
            omega
          · exact Or.inr ⟨x, hx, hxB⟩

theorem selectBest_append_of_reached {B' : Nat} (l1 l2 : List Occ)
    (h1 : ∀ x ∈ l1, x.score ≤ B') (h2 : ∀ x ∈ l2, x.score ≤ B')
    (hex : ∃ x ∈ l1, x.score = B') :
    selectBest (l1 ++ l2) = selectBest l1 := by
  unfold selectBest
  rw [selectAux_append]
  have hreach : (selectAux l1 none (-1)).2 = (B' : Int) := by
    refine selectAux_snd_reach l1 none (-1) h1 (Or.inr hex) ?_
    have : (0 : Int) ≤ (B' : Int) := Int.natCast_nonneg _
    omega
  rw [hreach, selectAux_stagnate h2]

theorem selectAux_fst_mem : ∀ (l : List Occ) (best : Option Match) (bs : Int),
    (selectAux l best bs).1 = best ∨ ∃ o ∈ l, (selectAux l best bs).1 = some o.m := by
  intro l
  induction l with
  | nil => intro best bs; left; rfl
  | cons o rest ih =>
      intro best bs
      simp only [selectAux]
      split
      · rcases ih (some o.m) (o.score : Int) with h | ⟨x, hx, h⟩
        · exact Or.inr ⟨o, List.mem_cons_self o rest, h⟩
        · exact Or.inr ⟨x, List.mem_cons_of_mem _ hx, h⟩
      · rcases ih best bs with h | ⟨x, hx, h⟩
        · exact Or.inl h
        · exact Or.inr ⟨x, List.mem_cons_of_mem _ hx, h⟩

theorem allOccsFrom_eq_nil (needleLower before after : List Char) (l : List TextNode)
    (i : Nat) (h : 25000 ≤ i) : allOccsFrom needleLower before after l i = [] := by
  cases l with
  | nil => rfl
  | cons n rest => simp [allOccsFrom, if_pos h]

theorem allOccsFrom_append (needleLower before after : List Char) (l1 l2 : List TextNode) :
    ∀ i, allOccsFrom needleLower before after (l1 ++ l2) i
      = allOccsFrom needleLower before after l1 i
        ++ allOccsFrom needleLower before after l2 (i + l1.length) := by
  induction l1 with
  | nil => intro i; simp [allOccsFrom]
  | cons n rest ih =>
      intro i
      by_cases h : 25000 ≤ i
      · rw [allOccsFrom_eq_nil _ _ _ _ _ h, allOccsFrom_eq_nil _ _ _ _ _ h, List.nil_append,
          allOccsFrom_eq_nil _ _ _ _ _ (le_trans h (Nat.le_add_right i _))]
      · simp only [List.cons_append, allOccsFrom, if_neg h, List.append_eq]
        rw [ih (i + 1), List.append_assoc]
        have : i + 1 + rest.length = i + (n :: rest).length := by
          simp [List.length_cons]; omega
        rw [this]

theorem allOccsFrom_mem {needleLower before after : List Char} {nodes : List TextNode} :
    ∀ (i : Nat) {o : Occ}, o ∈ allOccsFrom needleLower before after nodes i →
      ∃ j n, nodes[j]? = some n ∧ o.m.node = i + j ∧ n.skippable = false
        ∧ o.m.«end» = o.m.start + needleLower.length
        ∧ o.score = occScore before after o.pre o.post
        ∧ o.perfect = perfectHit before after o.pre o.post := by
  induction nodes with
  | nil => intro i o h; simp [allOccsFrom] at h
  | cons n rest ih =>
      intro i o h
      unfold allOccsFrom at h
      split at h
      · simp at h
      · rcases List.mem_append.mp h with h | h
        · obtain ⟨hsc, hpf, hnode, hend, hskip⟩ := nodeOccs_mem h
          exact ⟨0, n, by simp, by simpa using hnode, hskip, hend, hsc, hpf⟩
        · obtain ⟨j, n', hj, hnode, hskip, hend, hsc, hpf⟩ := ih (i + 1) h
          exact ⟨j + 1, n', by simpa using hj, by omega, hskip, hend, hsc, hpf⟩

theorem allOccs_mem {e : Entry} {nodes : List TextNode} {o : Occ} (h : o ∈ allOccs e nodes) :
    o.score = occScore (lowerChars e.contextBefore.data) (lowerChars e.contextAfter.data) o.pre o.post
      ∧ o.perfect = perfectHit (lowerChars e.contextBefore.data) (lowerChars e.contextAfter.data) o.pre o.post
      ∧ ∃ j n, nodes[j]? = some n ∧ o.m.node = j ∧ n.skippable = false
          ∧ o.m.«end» = o.m.start + (lowerChars (trimChars e.text.data)).length := by
  obtain ⟨j, n, hj, hnode, hskip, hend, hsc, hpf⟩ := allOccsFrom_mem 0 h
  exact ⟨hsc, hpf, j, n, hj, by simpa using hnode, hskip, hend⟩

theorem contextMatches_iff_score {before after : List Char} {o : Occ}
    (hsc : o.score = occScore before after o.pre o.post) :
    (contextMatches before after o = true ↔ o.score = scoreBound before after) := by
  rw [hsc, occScore_eq_scoreBound_iff]
  simp [contextMatches]

theorem selectBest_of_unique_context (before after : List Char) (o1 o2 : Occ)
    (hb1 : o1.score = occScore before after o1.pre o1.post)
    (hb2 : o2.score = occScore before after o2.pre o2.post)
    (hxor : contextMatches before after o1 ≠ contextMatches before after o2) :
    selectBest [o1, o2]
      = some (if contextMatches before after o1 = true then o1.m else o2.m) := by
  have hle1 : o1.score ≤ scoreBound before after := hb1 ▸ occScore_le_scoreBound before after _ _
  have hle2 : o2.score ≤ scoreBound before after := hb2 ▸ occScore_le_scoreBound before after _ _
  by_cases hc1 : contextMatches before after o1 = true
  · have hc2 : ¬ contextMatches before after o2 = true := fun h => hxor (hc1.trans h.symm)
    have hB1 : o1.score = scoreBound before after := (contextMatches_iff_score hb1).mp hc1
    have hB2 : o2.score ≠ scoreBound before after :=
      fun h => hc2 ((contextMatches_iff_score hb2).mpr h)
    rw [if_pos hc1]
    have := selectBest_firstMax [] [o2] o1 (by simp)
      (by intro x hx; simp only [List.mem_singleton] at hx; subst hx; omega)
    simpa using this
  · have hc2 : contextMatches before after o2 = true := by
      cases h2 : contextMatches before after o2
      · exact absurd (by rw [h2]; simpa using hc1) hxor
      · rfl
    have hB2 : o2.score = scoreBound before after := (contextMatches_iff_score hb2).mp hc2
    have hB1 : o1.score ≠ scoreBound before after :=
      fun h => hc1 ((contextMatches_iff_score hb1).mpr h)
    rw [if_neg hc1]
    have := selectBest_firstMax [o1] [] o2
      (by intro x hx; simp only [List.mem_singleton] at hx; subst hx; omega)
      (by simp)
    simpa using this

theorem walkNodes_take (needleLower before after : List Char) :
    ∀ (nodes : List TextNode) (i : Nat) (best : Option Match) (bs : Int),
      walkNodes needleLower before after nodes i best bs
        = walkNodes needleLower before after (nodes.take (25000 - i)) i best bs := by
  intro nodes
  induction nodes with
  | nil => intro i best bs; simp
  | cons n rest ih =>
      intro i best bs
      by_cases h : 25000 ≤ i
      · have h0 : 25000 - i = 0 := by omega
        rw [h0]
        simp [walkNodes, if_pos h]
      · have hpos : 25000 - i = (25000 - (i + 1)) + 1 := by omega
        rw [hpos, List.take_succ_cons]
        simp only [walkNodes, if_neg h]
        split
        · rfl
        · exact ih (i + 1) _ _

/-- Per-node cap: a visited node contributes at most 250 scored occurrences. -/
theorem nodeOccs_length_le (needleLower before after : List Char) (i : Nat) (n : TextNode) :
    (nodeOccs needleLower before after i n).length ≤ 250 := by
  unfold nodeOccs
  split
  · simp
  · simp [List.length_take_le]

/-! ## Claim C4 -/

/-- C4: for every needle whose trimmed text has length less than 3 — including
the empty string and whitespace-only strings — the Locator
(`findBestMatchInDocument`) performs no search and returns no match, regardless
of the document's content. -/
theorem C4_short_needle_no_match (e : Entry) (nodes : List TextNode)
    (h : (trimChars e.text.data).length < 3) :
    findBestMatchInDocument e nodes = none := by
  unfold findBestMatchInDocument
  rw [if_pos h]

/-- Witness for C4 at a whitespace-only needle over a nonempty document. -/
theorem C4_short_needle_no_match_witness :
    (trimChars ("   " : String).data).length < 3
      ∧ findBestMatchInDocument ⟨"q1", "   ", "", ""⟩ [⟨"abc def", false⟩] = none :=
  ⟨by decide, C4_short_needle_no_match ⟨"q1", "   ", "", ""⟩ [⟨"abc def", false⟩] (by decide)⟩

/-! ## Claim C1 -/

/-- C1: if the scanned occurrences of a needle (of trimmed length at least 3)
are exactly two, and exactly one of them is immediately preceded by text ending
with `contextBefore` and immediately followed by text starting with
`contextAfter`, then the Locator returns the occurrence with matching context,
not the other one.  (The witness instantiates the spec scenario: needle
"hello world", contextBefore "say ", contextAfter " today", document
"oh hello world! and say hello world today" gives the second occurrence.) -/
theorem C1_double_context_wins (e : Entry) (nodes : List TextNode) (o1 o2 : Occ)
    (hlen : 3 ≤ (trimChars e.text.data).length)
    (hocc : allOccs e nodes = [o1, o2])
    (hxor : contextMatches (lowerChars e.contextBefore.data) (lowerChars e.contextAfter.data) o1
          ≠ contextMatches (lowerChars e.contextBefore.data) (lowerChars e.contextAfter.data) o2) :
    findBestMatchInDocument e nodes
      = some (if contextMatches (lowerChars e.contextBefore.data)
                  (lowerChars e.contextAfter.data) o1 = true
              then o1.m else o2.m) := by
  have hm1 : o1 ∈ allOccs e nodes := by rw [hocc]; exact List.mem_cons_self _ _
  have hm2 : o2 ∈ allOccs e nodes := by rw [hocc]; simp
  obtain ⟨hsc1, -, -⟩ := allOccs_mem hm1
  obtain ⟨hsc2, -, -⟩ := allOccs_mem hm2
  rw [findBest_eq_selectBest e nodes hlen, hocc]
  exact selectBest_of_unique_context _ _ o1 o2 hsc1 hsc2 hxor

def c1Entry : Entry := ⟨"", "hello world", "say ", " today"⟩

def c1Node : TextNode := ⟨"oh hello world! and say hello world today", false⟩

def c1Occ1 : Occ := ⟨⟨0, 3, 14⟩, "oh ".data, "! and say hello world today".data, 1, false⟩

def c1Occ2 : Occ := ⟨⟨0, 24, 35⟩, "oh hello world! and say ".data, " today".data, 110, true⟩

/-- Witness for C1: the spec's own scenario, evaluated concretely — the second
occurrence (offsets 24-35 in the single text node) is returned. -/
theorem C1_double_context_wins_witness :
    findBestMatchInDocument c1Entry [c1Node] = some ⟨0, 24, 35⟩ := by
  rw [C1_double_context_wins c1Entry [c1Node] c1Occ1 c1Occ2 (by decide) (by decide) (by decide)]
  decide

/-! ## Claim C6 -/

/-- C6: the Locator tracks the single highest-scoring occurrence across the
walk, replacing the current best only on a strictly greater score — its result
is exactly the strict-improvement fold `selectBest` over the scanned
occurrences; in particular when the scanned occurrences are two with tied
scores, the first one in document order is returned; and as soon as some
occurrence matches both contexts exactly, the result is final: extending the
document with any further content cannot change it (the walk terminates at
that occurrence). -/
theorem C6_strict_tracking_and_early_exit (e : Entry) (nodes : List TextNode)
    (hlen : 3 ≤ (trimChars e.text.data).length) :
    (findBestMatchInDocument e nodes = selectBest (allOccs e nodes))
    ∧ (∀ o1 o2 : Occ, allOccs e nodes = [o1, o2] → o1.score = o2.score →
        findBestMatchInDocument e nodes = some o1.m)
    ∧ (∀ rest : List TextNode,
        (∃ o ∈ allOccs e nodes,
          contextMatches (lowerChars e.contextBefore.data) (lowerChars e.contextAfter.data) o
            = true) →
        findBestMatchInDocument e (nodes ++ rest) = findBestMatchInDocument e nodes) := by
  refine ⟨findBest_eq_selectBest e nodes hlen, ?_, ?_⟩
  · intro o1 o2 hocc htie
    rw [findBest_eq_selectBest e nodes hlen, hocc]
    have h1 : ¬ ((-1 : Int) < (o1.score : Int)) → False := by
      intro h
      exact h (by have : (0 : Int) ≤ (o1.score : Int) := Int.natCast_nonneg _; omega)
    unfold selectBest selectAux
    rw [if_pos (by have : (0 : Int) ≤ (o1.score : Int) := Int.natCast_nonneg _; omega)]
    rw [htie]
    simp [selectAux]
  · intro rest hex
    rw [findBest_eq_selectBest e nodes hlen, findBest_eq_selectBest e (nodes ++ rest) hlen]
    unfold allOccs at hex ⊢
    rw [allOccsFrom_append]
    obtain ⟨o, ho, hcm⟩ := hex
    obtain ⟨j, n, -, -, -, -, hsc, -⟩ := allOccsFrom_mem 0 ho
    refine selectBest_append_of_reached _ _
      (fun x hx => (allOccsFrom_bound _ x hx).1)
      (fun x hx => (allOccsFrom_bound _ x hx).1)
      ⟨o, ho, (contextMatches_iff_score hsc).mp hcm⟩

def tieEntry : Entry := ⟨"", "abc", "", ""⟩

def tieNode : TextNode := ⟨"abc", false⟩

/-- Witness for C6: a document with two identical nodes, each holding one
occurrence of the needle with no context — both score 0, and the tie keeps the
first occurrence in document order. -/
theorem C6_strict_tracking_witness :
    findBestMatchInDocument tieEntry [tieNode, tieNode] = some ⟨0, 0, 3⟩ := by
  have h := (C6_strict_tracking_and_early_exit tieEntry [tieNode, tieNode] (by decide)).2.1
    ⟨⟨0, 0, 3⟩, [], [], 0, false⟩ ⟨⟨1, 0, 3⟩, [], [], 0, false⟩ (by decide) (by decide)
  simpa using h

/-! ## Claim C5

The global cap is confirmed: only the first 25000 text nodes are ever
considered, and hitting that cap ends the walk with the best found so far.
The per-node cap of 250 occurrences, however, does NOT stop the scan: it only
truncates that node's occurrence list, and the walk continues with the
following nodes — refuting the claim that "whenever either cap is hit the
Locator stops scanning further and returns the best-scoring match found so
far". -/

def cexEntry : Entry := ⟨"", "xyz", "", " w"⟩

/-- A text node holding 251 occurrences of the needle "xyz", so the per-node
cap of 250 fires while scanning it. -/
def capNode : TextNode := ⟨⟨(List.replicate 251 "xyz".data).flatten⟩, false⟩

/-- The node after the capped one; its occurrence has an exact trailing
context match, so it outscores everything in the capped node. -/
def tailNode : TextNode := ⟨"xyz w", false⟩

set_option maxRecDepth 100000 in
theorem cex_occurrences_hit_cap :
    250 < (occList (lowerChars (trimChars cexEntry.text.data))
      (lowerChars capNode.value.data) 0).length := by decide

set_option maxRecDepth 100000 in
theorem cex_best_at_cap_time :
    selectBest (nodeOccs (lowerChars (trimChars cexEntry.text.data))
      (lowerChars cexEntry.contextBefore.data) (lowerChars cexEntry.contextAfter.data)
      0 capNode) = some ⟨0, 0, 3⟩ := by decide

set_option maxRecDepth 100000 in
theorem cex_locator_result :
    findBestMatchInDocument cexEntry [capNode, tailNode] = some ⟨1, 0, 3⟩ := by decide

/-- C5 counterexample: the first node of this concrete document holds 251
occurrences of the needle, so the per-node cap is hit while scanning it; the
best-scoring match found up to that point is the first occurrence of that node
(offsets 0-3 of node 0); yet the Locator returns the occurrence in the SECOND
node — it did not stop scanning when the cap was hit, refuting the claim as
stated. -/
theorem C5_caps_counterexample :
    (250 < (occList (lowerChars (trimChars cexEntry.text.data))
        (lowerChars capNode.value.data) 0).length)
    ∧ selectBest (nodeOccs (lowerChars (trimChars cexEntry.text.data))
        (lowerChars cexEntry.contextBefore.data) (lowerChars cexEntry.contextAfter.data)
        0 capNode) = some ⟨0, 0, 3⟩
    ∧ findBestMatchInDocument cexEntry [capNode, tailNode] = some ⟨1, 0, 3⟩
    ∧ (⟨1, 0, 3⟩ : Match) ≠ ⟨0, 0, 3⟩ :=
  ⟨cex_occurrences_hit_cap, cex_best_at_cap_time, cex_locator_result, by decide⟩

/-- C5 (amended): the scan is capped at 250 needle occurrences per text node
and 25000 visited text nodes overall.  Hitting the global node cap stops the
walk, so the result only ever depends on the first 25000 text nodes; hitting
the per-node cap stops the scan of that node only — the walk continues with
the following nodes, as the concrete capped document shows (the returned match
lies in the node after the capped one). -/
theorem C5_caps_amended :
    (∀ (needleLower before after : List Char) (i : Nat) (n : TextNode),
      (nodeOccs needleLower before after i n).length ≤ 250)
    ∧ (∀ (e : Entry) (nodes : List TextNode),
        findBestMatchInDocument e nodes = findBestMatchInDocument e (nodes.take 25000))
    ∧ findBestMatchInDocument cexEntry [capNode, tailNode] = some ⟨1, 0, 3⟩ := by
  refine ⟨nodeOccs_length_le, ?_, cex_locator_result⟩
  intro e nodes
  unfold findBestMatchInDocument
  by_cases h : (trimChars e.text.data).length < 3
  · rw [if_pos h, if_pos h]
  · rw [if_neg h, if_neg h]
    simpa using walkNodes_take _ _ _ nodes 0 none (-1)

/-! ## The document model for the Highlighter

A block is one element of the page body holding a list of sibling nodes: bare
text nodes, and `span.rc-highlight` markers (each marker holds one text node).
The tree walker's document order is the flattening of the blocks. -/

/-- A sibling node inside a block: a bare text node, or a highlight marker
(`span.rc-highlight`) with its text and its `data-rc-quote-id` value (the
source omits the attribute when the id is empty; an empty `quoteId` here means
exactly that). -/
inductive Seg where
  | plain (value : String)
  | marked (value : String) (quoteId : String)
deriving DecidableEq, Repr

/-- The text content of a node. -/
def Seg.text : Seg → String
  | .plain v => v
  | .marked v _ => v

/-- Whether the node is a highlight marker. -/
def Seg.isMarked : Seg → Bool
  | .plain _ => false
  | .marked _ _ => true

/-- One element of the body with its children; `skippable` models "the nearest
element ancestor is a script/style/form-control element". -/
structure Block where
  skippable : Bool
  segs : List Seg
deriving DecidableEq, Repr

/-- The whole document body. -/
abbrev Doc := List Block

/-- Source `isSkippableNode(node)` (popup.js:1485): a text node is skipped when
its ancestors include a script/style/form-control element
(`parent.closest("script, style, textarea, input, select, option, noscript")`)
or a highlight marker (`parent.closest(".rc-highlight")`). -/
def isSkippableNode (blockSkippable : Bool) (s : Seg) : Bool :=
  blockSkippable || s.isMarked

/-- All text nodes of the document in tree-walker order, each paired with its
block's skippable flag. -/
def flatSegs (d : Doc) : List (Bool × Seg) :=
  (d.map (fun b => b.segs.map (fun s => (b.skippable, s)))).flatten

/-- The walker's view of the document: every text node with its value and its
skippability. -/
def textNodesOf (d : Doc) : List TextNode :=
  (flatSegs d).map (fun p => ⟨p.2.text, isSkippableNode p.1 p.2⟩)

/-- Source `wrapTextMatch(textNode, start, end, quoteId)` (popup.js:1494) at
the node level: split the text node into the part before the match (omitted
when empty), a marker span holding the matched text, and the part after
(omitted when empty).  The Locator only ever returns bare text nodes, so a
marker target is returned unchanged. -/
def wrapSeg (s : Seg) (start stop : Nat) (quoteId : String) : List Seg :=
  match s with
  | .marked _ _ => [s]
  | .plain v =>
      let chars := v.data
      let before := chars.take start
      let mid := (chars.drop start).take (stop - start)
      let after := chars.drop stop
      (if before = [] then [] else [.plain ⟨before⟩])
        ++ [.marked ⟨mid⟩ quoteId]
        ++ (if after = [] then [] else [.plain ⟨after⟩])

/-- Replace the node at position `k` of a sibling list by its wrapped form. -/
def wrapSegsAt : List Seg → Nat → Nat → Nat → String → List Seg
  | [], _, _, _, _ => []
  | s :: rest, 0, start, stop, quoteId => wrapSeg s start stop quoteId ++ rest
  | s :: rest, k + 1, start, stop, quoteId => s :: wrapSegsAt rest k start stop quoteId

/-- `wrapTextMatch` at the document level: `idx` is the matched node's position
in tree-walker order (the `Match.node` field). -/
def wrapTextMatch : Doc → Nat → Nat → Nat → String → Doc
  | [], _, _, _, _ => []
  | b :: rest, idx, start, stop, quoteId =>
      if idx < b.segs.length then
        { b with segs := wrapSegsAt b.segs idx start stop quoteId } :: rest
      else
        b :: wrapTextMatch rest (idx - b.segs.length) start stop quoteId

/-- Unwrapping one marker: `parent.replaceChild(textNode(span.textContent),
span)` turns the marker back into a bare text node. -/
def Seg.unwrap : Seg → Seg
  | .plain v => .plain v
  | .marked v _ => .plain v

/-- Prepend a text run to a normalized sibling list, dropping it when empty
and merging it with an adjacent leading text node — the two effects of
`Node.normalize()`. -/
def consPlain (v : List Char) (l : List Seg) : List Seg :=
  if v = [] then l
  else
    match l with
    | .plain w :: t => .plain ⟨v ++ w.data⟩ :: t
    | _ => .plain ⟨v⟩ :: l

/-- `Node.normalize()` over a sibling list: remove empty text nodes and merge
adjacent text nodes; markers are elements and stay as they are. -/
def normalizeSegs : List Seg → List Seg
  | [] => []
  | .plain v :: rest => consPlain v.data (normalizeSegs rest)
  | .marked v quoteId :: rest => .marked v quoteId :: normalizeSegs rest

/-- Whether a block currently holds a marker span. -/
def blockHasMarker (b : Block) : Bool := b.segs.any Seg.isMarked

/-- The effect of `clearHighlights` (popup.js:1515) on one block: every marker
in it is unwrapped and the parent is normalized; a block without markers is
untouched. -/
def clearBlock (b : Block) : Block :=
  if blockHasMarker b then { b with segs := normalizeSegs (b.segs.map Seg.unwrap) } else b

/-- Source `clearHighlights()` (popup.js:1515): if no marker exists the
function returns at once; otherwise every marker is replaced by a bare text
node and each affected parent is normalized. -/
def clearHighlights (d : Doc) : Doc :=
  if d.any blockHasMarker then d.map clearBlock else d

/-- Source `findHighlightSpanById(id)` (popup.js:1526): trim the id, give up
when it is empty, otherwise return the first marker (in document order) whose
`data-rc-quote-id` equals it.  The result is the marker's position in
tree-walker order. -/
def findHighlightSpanById (d : Doc) (id : String) : Option Nat :=
  let q := jsTrim id
  if q = "" then none
  else (flatSegs d).findIdx? (fun p =>
    match p.2 with
    | .marked _ quoteId => quoteId = q
    | _ => false)

/-- Source `findHighlightSpanForText(text)` (popup.js:1535): trim and
lowercase the text, give up when empty, otherwise return the first marker
whose trimmed lowercased text equals it. -/
def findHighlightSpanForText (d : Doc) (text : String) : Option Nat :=
  let needle := lowerChars (trimChars text.data)
  if needle = [] then none
  else (flatSegs d).findIdx? (fun p =>
    match p.2 with
    | .marked v _ => lowerChars (trimChars v.data) = needle
    | _ => false)

/-- Source `highlightEntry(entry)` (popup.js:1627): locate the entry in the
document, wrap the match, and return the created span (looked up by id when
the entry has one, by text otherwise), together with the mutated document. -/
def highlightEntry (e : Entry) (d : Doc) : Doc × Option Nat :=
  match findBestMatchInDocument e (textNodesOf d) with
  | none => (d, none)
  | some m =>
      let d' := wrapTextMatch d m.node m.start m.«end» e.id
      (d', if e.id ≠ "" then findHighlightSpanById d' e.id
           else findHighlightSpanForText d' e.text)

/-- The normalization step of `applyHighlights` on one quote: ids/contexts are
kept (the source replaces non-string fields by empty strings, which the
`Entry` type already guarantees) and the text is trimmed. -/
def normalizeQuote (q : Entry) : Entry := { q with text := jsTrim q.text }

/-- The sort comparator `(a, b) => b.text.length - a.text.length`: `a` stays
before `b` exactly when its text is at least as long. -/
def quoteLeDesc (a b : Entry) : Bool := b.text.length ≤ a.text.length

/-- Stable insertion into a descending-sorted list: the new element goes in
front of the first element it need not follow.  Since `foldr` inserts later
(original-order-earlier) elements last, ties keep the original order — the
stability `Array.prototype.sort` guarantees; any stable sort for this
comparator produces the same list. -/
def insertDesc (q : Entry) : List Entry → List Entry
  | [] => [q]
  | x :: rest => if quoteLeDesc q x then q :: x :: rest else x :: insertDesc q rest

/-- Stable sort in descending text-length order, modelling
`.sort((a, b) => b.text.length - a.text.length)`. -/
def sortQuotesDesc (l : List Entry) : List Entry := l.foldr insertDesc []

/-- The quote pipeline of `applyHighlights` (popup.js:1670-1680): normalize,
drop quotes with trimmed text shorter than 3, sort descending by text length,
cap at 50. -/
def normalizeQuotes (qs : List Entry) : List Entry :=
  (sortQuotesDesc ((qs.map normalizeQuote).filter (fun q => 3 ≤ q.text.length))).take 50

/-- Source `applyHighlights(quotes)` (popup.js:1665): clear all existing
markers, then locate and wrap each quote of the normalized list in turn.
(`ensureHighlightStyle` only inserts a style element outside the body and is
invisible to this model.) -/
def applyHighlights (qs : List Entry) (d : Doc) : Doc :=
  (normalizeQuotes qs).foldl (fun dd e => (highlightEntry e dd).1) (clearHighlights d)

/-- The quote ids carried by the markers of a sibling list. -/
def segMarkerIds (l : List Seg) : List String :=
  l.filterMap (fun s =>
    match s with
    | .marked _ quoteId => some quoteId
    | _ => none)

/-- The quote ids carried by the document's markers, in document order. -/
def markerIds (d : Doc) : List String := (d.map (fun b => segMarkerIds b.segs)).flatten

/-- The markers of the document as (text, quote id) pairs, in document order. -/
def markersOf (d : Doc) : List (String × String) :=
  (d.map (fun b => b.segs.filterMap (fun s =>
    match s with
    | .marked v quoteId => some (v, quoteId)
    | _ => none))).flatten

/-! ## Where marker ids can come from -/

@[simp] theorem segMarkerIds_nil : segMarkerIds [] = [] := rfl

@[simp] theorem segMarkerIds_cons_plain (v : String) (l : List Seg) :
    segMarkerIds (Seg.plain v :: l) = segMarkerIds l := by
  simp [segMarkerIds]

@[simp] theorem segMarkerIds_cons_marked (v q : String) (l : List Seg) :
    segMarkerIds (Seg.marked v q :: l) = q :: segMarkerIds l := by
  simp [segMarkerIds]

@[simp] theorem segMarkerIds_append (l1 l2 : List Seg) :
    segMarkerIds (l1 ++ l2) = segMarkerIds l1 ++ segMarkerIds l2 := by
  simp [segMarkerIds]

@[simp] theorem markerIds_nil : markerIds [] = [] := rfl

@[simp] theorem markerIds_cons (b : Block) (d : Doc) :
    markerIds (b :: d) = segMarkerIds b.segs ++ markerIds d := by
  simp [markerIds, segMarkerIds]

theorem segMarkerIds_map_unwrap (l : List Seg) : segMarkerIds (l.map Seg.unwrap) = [] := by
  induction l with
  | nil => rfl
  | cons s rest ih => cases s <;> simpa [Seg.unwrap] using ih

theorem segMarkerIds_consPlain (v : List Char) (l : List Seg) :
    segMarkerIds (consPlain v l) = segMarkerIds l := by
  unfold consPlain
  split
  · rfl
  · split
    · next w t _ => simp
    · simp

theorem segMarkerIds_normalizeSegs (l : List Seg) :
    segMarkerIds (normalizeSegs l) = segMarkerIds l := by
  induction l with
  | nil => rfl
  | cons s rest ih =>
      cases s with
      | plain v => rw [normalizeSegs, segMarkerIds_consPlain, ih, segMarkerIds_cons_plain]
      | marked v quoteId => rw [normalizeSegs, segMarkerIds_cons_marked,
          segMarkerIds_cons_marked, ih]

theorem segMarkerIds_eq_nil_of_no_marker {b : Block} (h : blockHasMarker b = false) :
    segMarkerIds b.segs = [] := by
  unfold blockHasMarker at h
  rw [List.any_eq_false] at h
  unfold segMarkerIds
  rw [List.filterMap_eq_nil_iff]
  intro s hs
  have := h s hs
  cases s with
  | plain v => rfl
  | marked v quoteId => simp [Seg.isMarked] at this

theorem segMarkerIds_clearBlock (b : Block) : segMarkerIds (clearBlock b).segs = [] := by
  unfold clearBlock
  split
  · next h =>
      show segMarkerIds (normalizeSegs (b.segs.map Seg.unwrap)) = []
      rw [segMarkerIds_normalizeSegs, segMarkerIds_map_unwrap]
  · next h => exact segMarkerIds_eq_nil_of_no_marker (Bool.eq_false_iff.mpr h)

theorem markerIds_map_clearBlock (d : Doc) : markerIds (d.map clearBlock) = [] := by
  induction d with
  | nil => rfl
  | cons b rest ih =>
      rw [List.map_cons, markerIds_cons, ih, List.append_nil, segMarkerIds_clearBlock]

theorem markerIds_clearHighlights (d : Doc) : markerIds (clearHighlights d) = [] := by
  unfold clearHighlights
  split
  · exact markerIds_map_clearBlock d
  · next h =>
      rw [Bool.not_eq_true, List.any_eq_false] at h
      induction d with
      | nil => rfl
      | cons b rest ih =>
          rw [markerIds_cons,
            segMarkerIds_eq_nil_of_no_marker
              (Bool.eq_false_iff.mpr (h b (List.mem_cons_self _ _))),
            List.nil_append]
          exact ih (fun x hx => h x (List.mem_cons_of_mem _ hx))

theorem segMarkerIds_wrapSeg (s : Seg) (start stop : Nat) (quoteId : String) :
    ∀ x ∈ segMarkerIds (wrapSeg s start stop quoteId),
      x ∈ segMarkerIds [s] ∨ x = quoteId := by
  intro x hx
  cases s with
  | marked v q => exact Or.inl hx
  | plain v =>
      right
      simp only [wrapSeg] at hx
      by_cases hb : v.data.take start = [] <;> by_cases ha : v.data.drop stop = [] <;>
        simp [hb, ha] at hx <;> exact hx

theorem segMarkerIds_wrapSegsAt (l : List Seg) :
    ∀ (k start stop : Nat) (quoteId : String),
      ∀ x ∈ segMarkerIds (wrapSegsAt l k start stop quoteId),
        x ∈ segMarkerIds l ∨ x = quoteId := by
  induction l with
  | nil => intro k start stop quoteId x hx; simp [wrapSegsAt] at hx
  | cons s rest ih =>
      intro k start stop quoteId x hx
      cases k with
      | zero =>
          rw [wrapSegsAt, segMarkerIds_append] at hx
          rcases List.mem_append.mp hx with h | h
          · rcases segMarkerIds_wrapSeg s start stop quoteId x h with h' | h'
            · left
              cases s with
              | plain v => simp at h'
              | marked v q =>
                  simp only [segMarkerIds_cons_marked, segMarkerIds_nil,
                    List.mem_singleton] at h'
                  simp only [segMarkerIds_cons_marked, List.mem_cons]
                  exact Or.inl h'
            · exact Or.inr h'
          · left
            cases s with
            | plain v => simpa using h
            | marked v q => simp only [segMarkerIds_cons_marked]; exact List.mem_cons_of_mem _ h
      | succ k' =>
          rw [wrapSegsAt] at hx
          cases s with
          | plain v =>
              rw [segMarkerIds_cons_plain] at hx ⊢
              exact ih k' start stop quoteId x hx
          | marked v q =>
              rw [segMarkerIds_cons_marked] at hx ⊢
              rcases List.mem_cons.mp hx with h | h
              · exact Or.inl (h ▸ List.mem_cons_self _ _)
              · rcases ih k' start stop quoteId x h with h' | h'
                · exact Or.inl (List.mem_cons_of_mem _ h')
                · exact Or.inr h'

theorem markerIds_wrapTextMatch (d : Doc) :
    ∀ (idx start stop : Nat) (quoteId : String),
      ∀ x ∈ markerIds (wrapTextMatch d idx start stop quoteId),
        x ∈ markerIds d ∨ x = quoteId := by
  induction d with
  | nil => intro idx start stop quoteId x hx; simp [wrapTextMatch] at hx
  | cons b rest ih =>
      intro idx start stop quoteId x hx
      unfold wrapTextMatch at hx
      split at hx
      · rw [markerIds_cons] at hx
        rw [markerIds_cons]
        rcases List.mem_append.mp hx with h | h
        · rcases segMarkerIds_wrapSegsAt b.segs idx start stop quoteId x h with h' | h'
          · exact Or.inl (List.mem_append.mpr (Or.inl h'))
          · exact Or.inr h'
        · exact Or.inl (List.mem_append.mpr (Or.inr h))
      · rw [markerIds_cons] at hx
        rw [markerIds_cons]
        rcases List.mem_append.mp hx with h | h
        · exact Or.inl (List.mem_append.mpr (Or.inl h))
        · rcases ih _ _ _ _ x h with h' | h'
          · exact Or.inl (List.mem_append.mpr (Or.inr h'))
          · exact Or.inr h'

theorem markerIds_highlightEntry (e : Entry) (d : Doc) :
    ∀ x ∈ markerIds (highlightEntry e d).1, x ∈ markerIds d ∨ x = e.id := by
  intro x hx
  unfold highlightEntry at hx
  split at hx
  · exact Or.inl hx
  · exact markerIds_wrapTextMatch d _ _ _ _ x hx

theorem markerIds_highlight_foldl (l : List Entry) :
    ∀ (d : Doc), ∀ x ∈ markerIds (l.foldl (fun dd e => (highlightEntry e dd).1) d),
      x ∈ markerIds d ∨ ∃ e ∈ l, x = e.id := by
  induction l with
  | nil => intro d x hx; exact Or.inl hx
  | cons e rest ih =>
      intro d x hx
      simp only [List.foldl_cons] at hx
      rcases ih _ x hx with h | ⟨e', he', h⟩
      · rcases markerIds_highlightEntry e d x h with h' | h'
        · exact Or.inl h'
        · exact Or.inr ⟨e, List.mem_cons_self _ _, h'⟩
      · exact Or.inr ⟨e', List.mem_cons_of_mem _ he', h⟩

theorem markerIds_applyHighlights (qs : List Entry) (d : Doc) :
    ∀ x ∈ markerIds (applyHighlights qs d), ∃ e ∈ normalizeQuotes qs, x = e.id := by
  intro x hx
  unfold applyHighlights at hx
  rcases markerIds_highlight_foldl (normalizeQuotes qs) (clearHighlights d) x hx with h | h
  · rw [markerIds_clearHighlights] at h
    simp at h
  · exact h

/-! ## The stable sort -/

theorem insertDesc_perm (q : Entry) (l : List Entry) : (insertDesc q l).Perm (q :: l) := by
  induction l with
  | nil => simp [insertDesc]
  | cons x rest ih =>
      unfold insertDesc
      split
      · exact List.Perm.refl _
      · exact (List.Perm.cons x ih).trans (List.Perm.swap q x rest)

theorem sortQuotesDesc_perm (l : List Entry) : (sortQuotesDesc l).Perm l := by
  induction l with
  | nil => exact List.Perm.refl _
  | cons q rest ih =>
      show (insertDesc q (sortQuotesDesc rest)).Perm (q :: rest)
      exact (insertDesc_perm q _).trans (List.Perm.cons q ih)

theorem insertDesc_sorted {q : Entry} {l : List Entry}
    (hl : List.Pairwise (fun a b => b.text.length ≤ a.text.length) l) :
    List.Pairwise (fun a b => b.text.length ≤ a.text.length) (insertDesc q l) := by
  induction l with
  | nil => simp [insertDesc]
  | cons x rest ih =>
      unfold insertDesc
      rcases List.pairwise_cons.mp hl with ⟨hx, hrest⟩
      split
      · next hle =>
          simp only [quoteLeDesc, decide_eq_true_eq] at hle
          refine List.pairwise_cons.mpr ⟨?_, hl⟩
          intro y hy
          rcases List.mem_cons.mp hy with rfl | hy
          · exact hle
          · exact le_trans (hx y hy) hle
      · next hle =>
          simp only [quoteLeDesc, decide_eq_true_eq, not_le] at hle
          refine List.pairwise_cons.mpr ⟨?_, ih hrest⟩
          intro y hy
          rcases List.mem_cons.mp ((insertDesc_perm q rest).mem_iff.mp hy) with rfl | h
          · omega
          · exact hx y h

theorem sortQuotesDesc_sorted (l : List Entry) :
    List.Pairwise (fun a b => b.text.length ≤ a.text.length) (sortQuotesDesc l) := by
  induction l with
  | nil => simp [sortQuotesDesc]
  | cons q rest ih => exact insertDesc_sorted ih

/-! ## Claim C2 -/

/-- The 60-quote scenario: quote `j` has id `"q" ++ j` and text of `j + 3`
letters, so all 60 texts are valid (length at least 3) and have pairwise
distinct lengths. -/
def mkSixtyQuote (j : Nat) : Entry := ⟨"q" ++ toString j, ⟨List.replicate (j + 3) 'a'⟩, "", ""⟩

/-- The 60 quotes, shortest first. -/
def sixtyQuotes : List Entry := (List.range 60).map mkSixtyQuote

theorem normalizeQuotes_sixty_eq :
    normalizeQuotes sixtyQuotes = (List.range 50).map (fun k => mkSixtyQuote (59 - k)) := by
  decide

/-- C2: `applyHighlights` first removes quotes whose trimmed text is shorter
than 3 characters, sorts the remainder in descending order of text length,
and keeps only the first 50 before attempting to locate and wrap each one:
the attempted list has at most 50 quotes, every attempted quote has trimmed
length at least 3, the list is descending in text length, and every attempted
quote is a trimmed input quote.  In the concrete 60-quote scenario, the
attempted list is exactly the 50 longest quotes, and on every document no
marker can carry the id of one of the 10 shortest quotes. -/
theorem C2_filter_sort_cap (qs : List Entry) :
    ((normalizeQuotes qs).length ≤ 50
      ∧ (∀ q ∈ normalizeQuotes qs, 3 ≤ q.text.length)
      ∧ List.Pairwise (fun a b => b.text.length ≤ a.text.length) (normalizeQuotes qs)
      ∧ (∀ q ∈ normalizeQuotes qs, ∃ q0 ∈ qs, q = normalizeQuote q0))
    ∧ normalizeQuotes sixtyQuotes = (List.range 50).map (fun k => mkSixtyQuote (59 - k))
    ∧ (∀ (d : Doc) (j : Nat), j < 10 →
        (mkSixtyQuote j).id ∉ markerIds (applyHighlights sixtyQuotes d)) := by
  refine ⟨⟨List.length_take_le _ _, ?_, ?_, ?_⟩, normalizeQuotes_sixty_eq, ?_⟩
  · intro q hq
    have h1 := List.mem_of_mem_take hq
    have h2 := (sortQuotesDesc_perm _).mem_iff.mp h1
    simpa using (List.mem_filter.mp h2).2
  · exact List.Pairwise.sublist (List.take_sublist _ _) (sortQuotesDesc_sorted _)
  · intro q hq
    have h1 := List.mem_of_mem_take hq
    have h2 := (sortQuotesDesc_perm _).mem_iff.mp h1
    have h3 := (List.mem_filter.mp h2).1
    obtain ⟨q0, hq0, rfl⟩ := List.mem_map.mp h3
    exact ⟨q0, hq0, rfl⟩
  · intro d j hj hmem
    obtain ⟨e, he, hx⟩ := markerIds_applyHighlights sixtyQuotes d _ hmem
    have hin : (mkSixtyQuote j).id ∈ (normalizeQuotes sixtyQuotes).map (fun e => e.id) :=
      List.mem_map.mpr ⟨e, he, hx.symm⟩
    rw [normalizeQuotes_sixty_eq] at hin
    have hnot : ∀ j : Nat, j < 10 →
        (mkSixtyQuote j).id ∉
          (((List.range 50).map (fun k => mkSixtyQuote (59 - k))).map (fun e => e.id)) := by
      decide
    exact hnot j hj hin

/-! ## Normalized sibling lists -/

/-- Whether a sibling list is in the normalized form `Node.normalize()`
produces: no empty text node and no two adjacent text nodes. -/
def segsNormalized : List Seg → Bool
  | [] => true
  | .marked _ _ :: rest => segsNormalized rest
  | .plain _ :: .plain _ :: _ => false
  | .plain v :: rest => !v.data.isEmpty && segsNormalized rest

/-- Whether every block of the document is normalized. -/
def docNormalized (d : Doc) : Bool := d.all (fun b => segsNormalized b.segs)

theorem consPlain_nil (l : List Seg) : consPlain [] l = l := by
  simp [consPlain]

theorem consPlain_consPlain (a b : List Char) (l : List Seg) :
    consPlain a (consPlain b l) = consPlain (a ++ b) l := by
  by_cases hb : b = []
  · subst hb
    rw [consPlain_nil, List.append_nil]
  · by_cases ha : a = []
    · subst ha
      rw [consPlain_nil, List.nil_append]
    · have hab : a ++ b ≠ [] := fun h => ha (List.append_eq_nil.mp h).1
      unfold consPlain
      rw [if_neg hb, if_neg ha, if_neg hab]
      cases l with
      | nil => simp [List.append_assoc]
      | cons s t =>
          cases s with
          | plain w => simp [List.append_assoc]
          | marked w q => simp [List.append_assoc]

theorem normalizeSegs_split (a b : List Char) :
    ∀ (l1 l2 : List Seg),
      normalizeSegs (l1 ++ Seg.plain ⟨a⟩ :: Seg.plain ⟨b⟩ :: l2)
        = normalizeSegs (l1 ++ Seg.plain ⟨a ++ b⟩ :: l2) := by
  intro l1
  induction l1 with
  | nil =>
      intro l2
      show normalizeSegs (Seg.plain ⟨a⟩ :: Seg.plain ⟨b⟩ :: l2)
        = normalizeSegs (Seg.plain ⟨a ++ b⟩ :: l2)
      rw [normalizeSegs, normalizeSegs, normalizeSegs, consPlain_consPlain]
  | cons s rest ih =>
      intro l2
      cases s with
      | plain v =>
          simp only [List.cons_append, normalizeSegs, List.append_eq]
          rw [ih l2]
      | marked v q =>
          simp only [List.cons_append, normalizeSegs, List.append_eq]
          rw [ih l2]

theorem segsNormalized_cons_plain {v : String} {l : List Seg}
    (h : segsNormalized (Seg.plain v :: l) = true) :
    v.data ≠ [] ∧ segsNormalized l = true
      ∧ (∀ w t, l ≠ Seg.plain w :: t) := by
  cases l with
  | nil =>
      simp only [segsNormalized, Bool.and_eq_true, Bool.not_eq_true'] at h
      refine ⟨by simpa [List.isEmpty_iff] using h.1, rfl, by intro w t hwt; cases hwt⟩
  | cons s t =>
      cases s with
      | plain w => simp [segsNormalized] at h
      | marked w q =>
          simp only [segsNormalized, Bool.and_eq_true, Bool.not_eq_true'] at h
          exact ⟨by simpa [List.isEmpty_iff] using h.1, h.2, by intro w' t' hwt; cases hwt⟩

theorem normalizeSegs_of_normalized : ∀ {l : List Seg},
    segsNormalized l = true → normalizeSegs l = l := by
  intro l
  induction l with
  | nil => intro _; rfl
  | cons s rest ih =>
      intro h
      cases s with
      | marked v q =>
          rw [normalizeSegs, ih (by simpa [segsNormalized] using h)]
      | plain v =>
          obtain ⟨hv, hrest, hshape⟩ := segsNormalized_cons_plain h
          rw [normalizeSegs, ih hrest]
          unfold consPlain
          rw [if_neg hv]
          cases rest with
          | nil => rfl
          | cons s' t =>
              cases s' with
              | plain w => exact absurd rfl (hshape w t)
              | marked w q => rfl

theorem segsNormalized_normalizeSegs : ∀ (l : List Seg),
    segsNormalized (normalizeSegs l) = true := by
  intro l
  induction l with
  | nil => rfl
  | cons s rest ih =>
      cases s with
      | marked v q =>
          rw [normalizeSegs]
          cases hn : normalizeSegs rest with
          | nil => rfl
          | cons s' t =>
              rw [hn] at ih
              cases s' <;> simpa [segsNormalized] using ih
      | plain v =>
          rw [normalizeSegs]
          unfold consPlain
          by_cases hv : v.data = []
          · rw [if_pos hv]; exact ih
          · rw [if_neg hv]
            cases hn : normalizeSegs rest with
            | nil => simp [segsNormalized, List.isEmpty_iff, hv]
            | cons s' t =>
                rw [hn] at ih
                cases s' with
                | plain w =>
                    obtain ⟨hw, ht, hshape⟩ := segsNormalized_cons_plain ih
                    have hvw : (⟨v.data ++ w.data⟩ : String).data ≠ [] := by
                      simpa using fun h => hv (List.append_eq_nil.mp h).1
                    cases t with
                    | nil => simpa [segsNormalized, List.isEmpty_iff] using hvw
                    | cons s'' t' =>
                        cases s'' with
                        | plain w' => exact absurd rfl (hshape w' t')
                        | marked w' q' =>
                            simp only [segsNormalized, Bool.and_eq_true, Bool.not_eq_true']
                            refine ⟨by simpa [List.isEmpty_iff] using hvw, ?_⟩
                            simpa [segsNormalized] using ht
                | marked w q =>
                    simp only [segsNormalized, Bool.and_eq_true, Bool.not_eq_true']
                    exact ⟨by simpa [List.isEmpty_iff] using hv, by simpa [segsNormalized] using ih⟩

/-! ## Wrapping then clearing restores a normalized document -/

theorem take_mid_drop {start stop : Nat} (v : List Char) (h : start ≤ stop) :
    v.take start ++ ((v.drop start).take (stop - start) ++ v.drop stop) = v := by
  have h2 : v.drop stop = (v.drop start).drop (stop - start) := by
    rw [List.drop_drop]
    congr 1
    omega
  rw [h2, List.take_append_drop, List.take_append_drop]

theorem string_eta (v : String) : (⟨v.data⟩ : String) = v := rfl

theorem wrapSeg_unwrap_norm (v : String) (start stop : Nat) (quoteId : String)
    (h : start ≤ stop) (l1 l2 : List Seg) :
    normalizeSegs (l1 ++ (wrapSeg (Seg.plain v) start stop quoteId).map Seg.unwrap ++ l2)
      = normalizeSegs (l1 ++ Seg.plain v :: l2) := by
  set b4 := v.data.take start with hb4
  set mid := (v.data.drop start).take (stop - start) with hmiddef
  set af := v.data.drop stop with hafdef
  have hv : b4 ++ (mid ++ af) = v.data := take_mid_drop v.data h
  by_cases hb : b4 = []
  · by_cases ha : af = []
    · have hw : (wrapSeg (Seg.plain v) start stop quoteId).map Seg.unwrap
          = [Seg.plain ⟨mid⟩] := by
        simp [wrapSeg, Seg.unwrap, ← hb4, ← hmiddef, ← hafdef, hb, ha]
      rw [hw]
      have hmv : mid = v.data := by rw [hb, ha] at hv; simpa using hv
      rw [hmv, string_eta]
      simp
    · have hw : (wrapSeg (Seg.plain v) start stop quoteId).map Seg.unwrap
          = [Seg.plain ⟨mid⟩, Seg.plain ⟨af⟩] := by
        simp [wrapSeg, Seg.unwrap, ← hb4, ← hmiddef, ← hafdef, hb, ha]
      rw [hw]
      have hstep : l1 ++ [Seg.plain ⟨mid⟩, Seg.plain ⟨af⟩] ++ l2
          = l1 ++ Seg.plain ⟨mid⟩ :: Seg.plain ⟨af⟩ :: l2 := by simp
      rw [hstep, normalizeSegs_split mid af l1 l2]
      have hmv : mid ++ af = v.data := by rw [hb] at hv; simpa using hv
      rw [hmv, string_eta]
  · by_cases ha : af = []
    · have hw : (wrapSeg (Seg.plain v) start stop quoteId).map Seg.unwrap
          = [Seg.plain ⟨b4⟩, Seg.plain ⟨mid⟩] := by
        simp [wrapSeg, Seg.unwrap, ← hb4, ← hmiddef, ← hafdef, hb, ha]
      rw [hw]
      have hstep : l1 ++ [Seg.plain ⟨b4⟩, Seg.plain ⟨mid⟩] ++ l2
          = l1 ++ Seg.plain ⟨b4⟩ :: Seg.plain ⟨mid⟩ :: l2 := by simp
      rw [hstep, normalizeSegs_split b4 mid l1 l2]
      have hmv : b4 ++ mid = v.data := by rw [ha] at hv; simpa using hv
      rw [hmv, string_eta]
    · have hw : (wrapSeg (Seg.plain v) start stop quoteId).map Seg.unwrap
          = [Seg.plain ⟨b4⟩, Seg.plain ⟨mid⟩, Seg.plain ⟨af⟩] := by
        simp [wrapSeg, Seg.unwrap, ← hb4, ← hmiddef, ← hafdef, hb, ha]
      rw [hw]
      have hstep : l1 ++ [Seg.plain ⟨b4⟩, Seg.plain ⟨mid⟩, Seg.plain ⟨af⟩] ++ l2
          = l1 ++ Seg.plain ⟨b4⟩ :: Seg.plain ⟨mid⟩ :: Seg.plain ⟨af⟩ :: l2 := by simp
      rw [hstep, normalizeSegs_split b4 mid l1 (Seg.plain ⟨af⟩ :: l2),
        normalizeSegs_split (b4 ++ mid) af l1 l2]
      have hmv : b4 ++ mid ++ af = v.data := by rw [List.append_assoc]; exact hv
      rw [hmv, string_eta]

theorem wrapSegsAt_norm_unwrap : ∀ (l : List Seg) (k start stop : Nat) (quoteId : String),
    start ≤ stop →
    normalizeSegs ((wrapSegsAt l k start stop quoteId).map Seg.unwrap)
      = normalizeSegs (l.map Seg.unwrap) := by
  intro l
  induction l with
  | nil => intro k _ _ _ _; rfl
  | cons s rest ih =>
      intro k start stop quoteId h
      cases k with
      | zero =>
          rw [wrapSegsAt]
          cases s with
          | marked v q => rfl
          | plain v =>
              rw [List.map_append]
              simpa using wrapSeg_unwrap_norm v start stop quoteId h [] (rest.map Seg.unwrap)
      | succ k' =>
          rw [wrapSegsAt]
          cases s with
          | plain v =>
              simp only [List.map_cons, Seg.unwrap, normalizeSegs]
              rw [ih k' start stop quoteId h]
          | marked v q =>
              simp only [List.map_cons, Seg.unwrap, normalizeSegs]
              rw [ih k' start stop quoteId h]

theorem wrapSegsAt_no_marker : ∀ (l : List Seg) (k start stop : Nat) (quoteId : String),
    (wrapSegsAt l k start stop quoteId).any Seg.isMarked = false →
    wrapSegsAt l k start stop quoteId = l := by
  intro l
  induction l with
  | nil => intro k _ _ _ _; rfl
  | cons s rest ih =>
      intro k start stop quoteId h
      cases k with
      | zero =>
          rw [wrapSegsAt] at h ⊢
          cases s with
          | marked v q =>
              show wrapSeg (Seg.marked v q) start stop quoteId ++ rest = Seg.marked v q :: rest
              rfl
          | plain v =>
              exfalso
              simp only [wrapSeg] at h
              by_cases hb : v.data.take start = [] <;> by_cases ha : v.data.drop stop = [] <;>
                simp [hb, ha, Seg.isMarked] at h
      | succ k' =>
          rw [wrapSegsAt] at h ⊢
          rw [List.any_cons, Bool.or_eq_false_iff] at h
          rw [ih k' start stop quoteId h.2]

/-! ## The refinement relation between a marked document and its clean form -/

/-- A block `xb` refines a clean block `eb` when it has the same skippability,
unwrapping its markers and normalizing restores `eb`'s nodes, and — when it
holds no marker at all — it IS `eb` (so `clearHighlights`'s early return is
harmless). -/
def blockR (eb xb : Block) : Prop :=
  xb.skippable = eb.skippable
  ∧ normalizeSegs (xb.segs.map Seg.unwrap) = eb.segs
  ∧ (blockHasMarker xb = false → xb = eb)

/-- Pointwise refinement of the whole document. -/
def docR (E X : Doc) : Prop := List.Forall₂ blockR E X

theorem map_unwrap_of_no_marker : ∀ {l : List Seg},
    l.any Seg.isMarked = false → l.map Seg.unwrap = l := by
  intro l
  induction l with
  | nil => intro _; rfl
  | cons s rest ih =>
      intro h
      rw [List.any_cons, Bool.or_eq_false_iff] at h
      cases s with
      | plain v => rw [List.map_cons, Seg.unwrap, ih h.2]
      | marked v q => simp [Seg.isMarked] at h

theorem docR_refl_of_clean : ∀ {E : Doc},
    (∀ b ∈ E, segsNormalized b.segs = true) →
    (∀ b ∈ E, blockHasMarker b = false) → docR E E := by
  intro E hn hm
  induction E with
  | nil => exact List.Forall₂.nil
  | cons b rest ih =>
      refine List.Forall₂.cons ⟨rfl, ?_, fun _ => rfl⟩
        (ih (fun x hx => hn x (List.mem_cons_of_mem _ hx))
            (fun x hx => hm x (List.mem_cons_of_mem _ hx)))
      rw [map_unwrap_of_no_marker (hm b (List.mem_cons_self _ _)),
        normalizeSegs_of_normalized (hn b (List.mem_cons_self _ _))]

theorem docR_wrapTextMatch : ∀ {E X : Doc}, docR E X →
    ∀ (idx start stop : Nat) (quoteId : String), start ≤ stop →
      docR E (wrapTextMatch X idx start stop quoteId) := by
  intro E X hR
  induction hR with
  | nil => intro idx start stop quoteId _; exact List.Forall₂.nil
  | cons hb hrest ih =>
      intro idx start stop quoteId h
      rw [wrapTextMatch]
      split
      · refine List.Forall₂.cons ⟨hb.1, ?_, ?_⟩ hrest
        · show normalizeSegs ((wrapSegsAt _ idx start stop quoteId).map Seg.unwrap) = _
          rw [wrapSegsAt_norm_unwrap _ idx start stop quoteId h, hb.2.1]
        · intro hnm
          have heq := wrapSegsAt_no_marker _ idx start stop quoteId hnm
          rw [heq] at hnm ⊢
          exact hb.2.2 hnm
      · exact List.Forall₂.cons hb (ih _ start stop quoteId h)

theorem findBest_result {e : Entry} {nodes : List TextNode} {m : Match}
    (h : findBestMatchInDocument e nodes = some m) :
    ∃ n, nodes[m.node]? = some n ∧ n.skippable = false ∧ m.start ≤ m.«end» := by
  by_cases hlen : (trimChars e.text.data).length < 3
  · unfold findBestMatchInDocument at h
    rw [if_pos hlen] at h
    cases h
  · rw [findBest_eq_selectBest e nodes (Nat.not_lt.mp hlen)] at h
    unfold selectBest at h
    rcases selectAux_fst_mem (allOccs e nodes) none (-1) with h0 | ⟨o, ho, heq⟩
    · rw [h0] at h; cases h
    · rw [heq] at h
      have hm := Option.some.inj h
      subst hm
      obtain ⟨j, n, hj, hnode, hskip, hend, -, -⟩ := allOccsFrom_mem 0 ho
      refine ⟨n, ?_, hskip, by omega⟩
      rw [hnode]
      simpa using hj

theorem docR_highlightEntry {E X : Doc} (hR : docR E X) (e : Entry) :
    docR E (highlightEntry e X).1 := by
  cases hbest : findBestMatchInDocument e (textNodesOf X) with
  | none => simpa [highlightEntry, hbest] using hR
  | some m =>
      obtain ⟨n, -, -, hss⟩ := findBest_result hbest
      simp only [highlightEntry, hbest]
      exact docR_wrapTextMatch hR m.node m.start m.«end» e.id hss

theorem docR_highlight_foldl (l : List Entry) :
    ∀ {E X : Doc}, docR E X →
      docR E (l.foldl (fun dd e => (highlightEntry e dd).1) X) := by
  induction l with
  | nil => intro E X h; exact h
  | cons e rest ih => intro E X h; exact ih (docR_highlightEntry h e)

theorem clearBlock_of_blockR {eb xb : Block} (h : blockR eb xb) : clearBlock xb = eb := by
  unfold clearBlock
  split
  · obtain ⟨h1, h2, -⟩ := h
    cases eb with
    | mk esk esegs =>
        cases xb with
        | mk xsk xsegs =>
            simp only at h1 h2
            simp [h1, h2]
  · next hm => exact h.2.2 (Bool.eq_false_iff.mpr hm)

theorem map_clearBlock_of_docR : ∀ {E X : Doc}, docR E X → X.map clearBlock = E := by
  intro E X hR
  induction hR with
  | nil => rfl
  | cons hb hrest ih => rw [List.map_cons, clearBlock_of_blockR hb, ih]

theorem eq_of_docR_no_marker : ∀ {E X : Doc}, docR E X →
    X.any blockHasMarker = false → X = E := by
  intro E X hR
  induction hR with
  | nil => intro _; rfl
  | cons hb hrest ih =>
      intro h
      rw [List.any_eq_false] at h
      have hx := hb.2.2 (Bool.eq_false_iff.mpr (h _ (List.mem_cons_self _ _)))
      rw [hx, ih (List.any_eq_false.mpr (fun x hxm => h x (List.mem_cons_of_mem _ hxm)))]

theorem clearHighlights_of_docR {E X : Doc} (hR : docR E X) : clearHighlights X = E := by
  unfold clearHighlights
  split
  · exact map_clearBlock_of_docR hR
  · next h => exact eq_of_docR_no_marker hR (Bool.eq_false_iff.mpr h)

theorem any_isMarked_eq_false_iff (l : List Seg) :
    (l.any Seg.isMarked = false) ↔ segMarkerIds l = [] := by
  induction l with
  | nil => simp
  | cons s rest ih =>
      cases s with
      | plain v => simpa [Seg.isMarked] using ih
      | marked v q => simp [Seg.isMarked]

theorem clearHighlights_normalized {d : Doc} (hd : docNormalized d = true) :
    ∀ b ∈ clearHighlights d, segsNormalized b.segs = true := by
  intro b hb
  unfold clearHighlights at hb
  split at hb
  · rw [List.mem_map] at hb
    obtain ⟨b0, hb0, rfl⟩ := hb
    unfold clearBlock
    split
    · exact segsNormalized_normalizeSegs _
    · exact List.all_eq_true.mp hd b0 hb0
  · exact List.all_eq_true.mp hd b hb

theorem clearHighlights_no_marker (d : Doc) :
    ∀ b ∈ clearHighlights d, blockHasMarker b = false := by
  intro b hb
  unfold clearHighlights at hb
  split at hb
  · rw [List.mem_map] at hb
    obtain ⟨b0, -, rfl⟩ := hb
    exact (any_isMarked_eq_false_iff _).mpr (segMarkerIds_clearBlock b0)
  · next h =>
      rw [Bool.not_eq_true, List.any_eq_false] at h
      exact Bool.eq_false_iff.mpr (h b hb)

theorem clear_applyHighlights {d : Doc} (qs : List Entry) (hd : docNormalized d = true) :
    clearHighlights (applyHighlights qs d) = clearHighlights d := by
  unfold applyHighlights
  exact clearHighlights_of_docR
    (docR_highlight_foldl _
      (docR_refl_of_clean (clearHighlights_normalized hd) (clearHighlights_no_marker d)))

/-! ## Claim C7

The no-nesting invariant is real: the Locator only ever returns a bare text
node outside every marker, so a wrap never splits marker text and never nests.
The idempotence consequence, however, FAILS on documents whose text nodes are
not normalized: `clearHighlights` calls `parent.normalize()`, which also
merges text-node siblings that were adjacent before any highlighting, and the
merged node can expose needle matches that span the old node boundary. -/

/-- A document with two adjacent sibling text nodes; the text "world today"
only appears when they are merged. -/
def c7Doc : Doc := [⟨false, [Seg.plain "say hello world", Seg.plain " today x"]⟩]

/-- Two quotes: the long one only matches after the merge. -/
def c7Quotes : List Entry := [⟨"q1", "world today", "", ""⟩, ⟨"q2", "hello", "", ""⟩]

/-- C7 counterexample: on a document with two adjacent sibling text nodes,
the first `applyHighlights` produces one marker ("hello"); clearing inside the
second call merges the two text nodes, so the second call additionally matches
"world today" across the old boundary — the two calls produce different marker
sets, refuting the idempotence part of the claim as stated. -/
theorem C7_idempotence_counterexample :
    markersOf (applyHighlights c7Quotes (applyHighlights c7Quotes c7Doc))
      ≠ markersOf (applyHighlights c7Quotes c7Doc) := by decide

/-- C7 (amended): no marker ever nests inside another — the Locator only
returns matches in bare text nodes whose block is not skippable, so a wrap
never targets marker text (in this model nested markers are therefore not even
representable).  Idempotence holds on every document whose text nodes are
normalized (no empty text node and no two adjacent sibling text nodes):
calling `applyHighlights` twice with the same quote set then yields the very
same document — hence the same marker set — as calling it once.  On documents
with adjacent sibling text nodes the `normalize()` call inside the clearing
step can merge them and expose new matches, as the counterexample shows. -/
theorem C7_no_nesting_and_idempotence :
    (∀ (e : Entry) (d : Doc) (m : Match),
        findBestMatchInDocument e (textNodesOf d) = some m →
        ∃ sk s, (flatSegs d)[m.node]? = some (sk, s) ∧ sk = false ∧ s.isMarked = false)
    ∧ (∀ (qs : List Entry) (d : Doc), docNormalized d = true →
        applyHighlights qs (applyHighlights qs d) = applyHighlights qs d) := by
  constructor
  · intro e d m h
    obtain ⟨n, hn, hskip, -⟩ := findBest_result h
    unfold textNodesOf at hn
    rw [List.getElem?_map] at hn
    cases hp : (flatSegs d)[m.node]? with
    | none => rw [hp] at hn; cases hn
    | some p =>
        obtain ⟨sk, s⟩ := p
        rw [hp] at hn
        have hnp := Option.some.inj hn
        have hsk : isSkippableNode sk s = false := by rw [← hskip, ← hnp]
        exact ⟨sk, s, hp.symm ▸ rfl, (Bool.or_eq_false_iff.mp hsk).1,
          (Bool.or_eq_false_iff.mp hsk).2⟩
  · intro qs d hd
    show (normalizeQuotes qs).foldl (fun dd e => (highlightEntry e dd).1)
        (clearHighlights (applyHighlights qs d)) = applyHighlights qs d
    rw [clear_applyHighlights qs hd]
    rfl

/-! ## The Highlighter's page state: refresh and scroll-to-quote -/

/-- The content script's page-global state: the live document and the
"last applied" guard variables (popup.js:1382-1383). -/
structure HLState where
  doc : Doc
  lastHighlightUrl : String
  lastHighlightSignature : String
deriving DecidableEq, Repr

/-- The quote-set signature of `refreshHighlights` (popup.js:1695-1697):
`id:textLength` per quote, joined with "|". -/
def signatureOf (qs : List Entry) : String :=
  String.intercalate "|" (qs.map (fun q => q.id ++ ":" ++ toString q.text.length))

/-- Source `refreshHighlights()` (popup.js:1687): the current page URL (already
normalized; `none` when invalid) and the `getQuotesForUrl` response (`none` for
a failed or not-ok round trip — every exception is caught) are passed in
explicitly.  When the guard matches, the function returns before
`applyHighlights` runs; the boolean records whether `applyHighlights` ran. -/
def refreshHighlights (url : Option String) (fetched : Option (List Entry))
    (st : HLState) : HLState × Bool :=
  match url with
  | none => (st, false)
  | some u =>
      match fetched with
      | none => (st, false)
      | some quotes =>
          let sig := signatureOf quotes
          if st.lastHighlightUrl = u ∧ st.lastHighlightSignature = sig then (st, false)
          else
            ({ doc := applyHighlights quotes st.doc, lastHighlightUrl := u,
               lastHighlightSignature := sig }, true)

/-! ## Claim C3 -/

/-- C3: `refreshHighlights` computes its signature from the quote set as each
quote's id and text length concatenated (joined `id:length` with `|`), and a
second call with the same quote set and page URL immediately after a
successful first call is a no-op: it returns `(unchanged state, false)` —
`applyHighlights` does not run and the document is untouched. -/
theorem C3_refresh_signature_guard (st : HLState) (u : String) (quotes : List Entry) :
    refreshHighlights (some u) (some quotes)
        ((refreshHighlights (some u) (some quotes) st).1)
      = ((refreshHighlights (some u) (some quotes) st).1, false)
    ∧ signatureOf quotes
      = String.intercalate "|" (quotes.map (fun q => q.id ++ ":" ++ toString q.text.length)) := by
  refine ⟨?_, rfl⟩
  by_cases h : st.lastHighlightUrl = u ∧ st.lastHighlightSignature = signatureOf quotes
  · simp [refreshHighlights, h]
  · simp [refreshHighlights, h]

/-- Source `scrollToQuote(payload)` (popup.js:1635): resolve a target marker
by id, then by refreshing the highlights and retrying the id, then by exact
trimmed case-insensitive text among the existing markers, then by a one-off
locate-and-highlight of just this entry; scroll only when a target was found
(the returned boolean; `scrollIntoView` itself is wrapped in try/catch).  The
refresh's message round-trip inputs are passed in as in `refreshHighlights`. -/
def scrollToQuote (payload : Entry) (url : Option String) (fetched : Option (List Entry))
    (st : HLState) : HLState × Option Nat × Bool :=
  if jsTrim payload.text = "" then (st, none, false)
  else
    match (if payload.id ≠ "" then findHighlightSpanById st.doc payload.id else none) with
    | some t => (st, some t, true)
    | none =>
        match (if payload.id ≠ "" then
                 findHighlightSpanById ((refreshHighlights url fetched st).1).doc payload.id
               else none) with
        | some t => ((refreshHighlights url fetched st).1, some t, true)
        | none =>
            match findHighlightSpanForText ((refreshHighlights url fetched st).1).doc
                (jsTrim payload.text) with
            | some t => ((refreshHighlights url fetched st).1, some t, true)
            | none =>
                match highlightEntry payload ((refreshHighlights url fetched st).1).doc with
                | (d', some t) =>
                    ({ (refreshHighlights url fetched st).1 with doc := d' }, some t, true)
                | (d', none) =>
                    ({ (refreshHighlights url fetched st).1 with doc := d' }, none, false)

/-! ## Claim C9 -/

/-- C9: `scrollToQuote` resolves its target by, in order: id lookup (when it
succeeds nothing else runs and the state is untouched); refreshing highlights
and retrying the id; text lookup among existing markers; and a one-off
locate-and-highlight.  An empty trimmed needle is an immediate no-op, and
whenever no target is produced the operation does not scroll — the model is a
total function, so no failure can escape to the host page. -/
theorem C9_scroll_fallbacks (payload : Entry) (url : Option String)
    (fetched : Option (List Entry)) (st : HLState) :
    (jsTrim payload.text = "" → scrollToQuote payload url fetched st = (st, none, false))
    ∧ (∀ t, jsTrim payload.text ≠ "" → payload.id ≠ "" →
        findHighlightSpanById st.doc payload.id = some t →
        scrollToQuote payload url fetched st = (st, some t, true))
    ∧ ((scrollToQuote payload url fetched st).2.1 = none →
        (scrollToQuote payload url fetched st).2.2 = false)
    ∧ (jsTrim payload.text ≠ "" →
        (if payload.id ≠ "" then findHighlightSpanById st.doc payload.id else none) = none →
        (if payload.id ≠ ""
         then findHighlightSpanById ((refreshHighlights url fetched st).1).doc payload.id
         else none) = none →
        findHighlightSpanForText ((refreshHighlights url fetched st).1).doc
          (jsTrim payload.text) = none →
        (highlightEntry payload ((refreshHighlights url fetched st).1).doc).2 = none →
        scrollToQuote payload url fetched st
          = ({ (refreshHighlights url fetched st).1 with
                doc := (highlightEntry payload ((refreshHighlights url fetched st).1).doc).1 },
             none, false)) := by
  refine ⟨?_, ?_, ?_, ?_⟩
  · intro h
    unfold scrollToQuote
    rw [if_pos h]
  · intro t h1 h2 h3
    unfold scrollToQuote
    rw [if_neg h1, if_pos h2, h3]
  · unfold scrollToQuote
    split
    · intro _; rfl
    · split
      · intro h; simp at h
      · split
        · intro h; simp at h
        · split
          · intro h; simp at h
          · split
            · intro h; simp at h
            · intro _; rfl
  · intro h1 h2 h3 h4 h5
    unfold scrollToQuote
    rw [if_neg h1, h2, h3, h4]
    cases heq : highlightEntry payload ((refreshHighlights url fetched st).1).doc with
    | mk d' e' =>
        rw [heq] at h5
        simp only at h5
        subst h5
        simp [heq]

/-- Witness for C9: a concrete id-lookup hit — the document already holds a
marker for the quote, so the id fallback resolves at once and the state is
untouched. -/
theorem C9_scroll_fallbacks_witness :
    scrollToQuote ⟨"q1", "hello", "", ""⟩ none none
        ⟨[⟨false, [Seg.marked "hello" "q1"]⟩], "", ""⟩
      = (⟨[⟨false, [Seg.marked "hello" "q1"]⟩], "", ""⟩, some 0, true) := by
  have h := (C9_scroll_fallbacks ⟨"q1", "hello", "", ""⟩ none none
    ⟨[⟨false, [Seg.marked "hello" "q1"]⟩], "", ""⟩).2.1 0 (by decide) (by decide) (by decide)
  exact h

/-! ## The Progress Tracker

DOM pixel quantities are JavaScript numbers; they are modelled as rationals.
A value that is not a number (`typeof p !== "number" || Number.isNaN(p)`) is
modelled as `none`.  `Math.round` rounds half away from... upward
(`Math.round(0.5) = 1`, `Math.round(-0.5) = 0`), which is exactly Mathlib's
`round` (`⌊x + 1/2⌋`). -/

/-- Source `clampProgress(p)` (popup.js:1395): 0 for a non-number, otherwise
the rounded value clamped into [0, 100]. -/
def clampProgress : Option ℚ → ℤ
  | none => 0
  | some x => max 0 (min 100 (round x))

/-- Source `computeScrollProgressPercent()` (popup.js:1400), over the three
layout inputs it reads. -/
def computeScrollProgressPercent (scrollTop scrollHeight clientHeight : ℚ) : ℤ :=
  let denom := max 1 (scrollHeight - clientHeight)
  clampProgress (some (scrollTop / denom * 100))

/-- The `scrollToProgress` message handler (popup.js:1719-1726): clamp the
requested percentage and compute the scroll target
`Math.round(progress / 100 * denom)`. -/
def scrollToProgressTop (progress : Option ℚ) (scrollHeight clientHeight : ℚ) : ℤ :=
  let p := clampProgress progress
  let denom := max 1 (scrollHeight - clientHeight)
  round ((p : ℚ) / 100 * denom)

/-- The spec's formula, as §4.3 words it: clamp(round(scrollTop /
max(1, scrollHeight − clientHeight) × 100), 0, 100). -/
def specProgressFormula (scrollTop scrollHeight clientHeight : ℚ) : ℤ :=
  min (max (round (scrollTop / max 1 (scrollHeight - clientHeight) * 100)) 0) 100

theorem clamp_abs_le {x p : ℚ} (h0 : 0 ≤ p) (h100 : p ≤ 100) :
    |max 0 (min 100 x) - p| ≤ |x - p| := by
  rcases le_total x 0 with hx | hx
  · have h1 : min 100 x = x := min_eq_right (by linarith)
    have h2 : max 0 x = 0 := max_eq_left hx
    rw [h1, h2]
    rw [abs_of_nonpos (by linarith), abs_of_nonpos (by linarith)]
    linarith
  · rcases le_total x 100 with hx2 | hx2
    · rw [min_eq_right hx2, max_eq_right hx]
    · have h1 : min 100 x = 100 := min_eq_left hx2
      rw [h1, max_eq_right (by norm_num : (0 : ℚ) ≤ 100)]
      rw [abs_of_nonneg (by linarith), abs_of_nonneg (by linarith)]
      linarith

/-! ## Claim C8 -/

/-- C8: `computeScrollProgressPercent` equals the spec's formula
clamp(round(scrollTop / max(1, scrollHeight − clientHeight) × 100), 0, 100),
and on a document tall enough to scroll (scrollHeight − clientHeight ≥ 1)
restoring an integer percent p in [0, 100] and recomputing yields p back
within rounding tolerance: exactly p whenever the scrollable distance is at
least 100 pixels, and in general within 1/2 + 50/denominator. -/
theorem C8_progress_roundtrip :
    (∀ scrollTop scrollHeight clientHeight : ℚ,
        computeScrollProgressPercent scrollTop scrollHeight clientHeight
          = specProgressFormula scrollTop scrollHeight clientHeight)
    ∧ (∀ (p : ℤ) (sH cH : ℚ), 0 ≤ p → p ≤ 100 → 1 ≤ sH - cH →
        (100 ≤ sH - cH →
          computeScrollProgressPercent
            ((scrollToProgressTop (some (p : ℚ)) sH cH : ℤ) : ℚ) sH cH = p)
        ∧ |(computeScrollProgressPercent
              ((scrollToProgressTop (some (p : ℚ)) sH cH : ℤ) : ℚ) sH cH : ℚ) - (p : ℚ)|
            ≤ 1 / 2 + 50 / (sH - cH)) := by
  constructor
  · intro scrollTop scrollHeight clientHeight
    unfold computeScrollProgressPercent specProgressFormula
    simp only [clampProgress]
    omega
  · intro p sH cH hp0 hp100 hd
    have hdpos : (0 : ℚ) < sH - cH := by linarith
    have hdmax : max 1 (sH - cH) = sH - cH := max_eq_right hd
    have hclampP : clampProgress (some ((p : ℤ) : ℚ)) = p := by
      simp only [clampProgress]
      rw [round_intCast]
      omega
    have htopdef : scrollToProgressTop (some (p : ℚ)) sH cH
        = round (((p : ℤ) : ℚ) / 100 * (sH - cH)) := by
      unfold scrollToProgressTop
      rw [hclampP, hdmax]
    set top := round (((p : ℤ) : ℚ) / 100 * (sH - cH)) with htop
    have hround1 : |((p : ℚ) / 100 * (sH - cH)) - (top : ℚ)| ≤ 1 / 2 := by
      rw [htop]
      exact abs_sub_round _
    have hv : (top : ℚ) / (sH - cH) * 100 - (p : ℚ)
        = ((top : ℚ) - (p : ℚ) / 100 * (sH - cH)) * (100 / (sH - cH)) := by
      field_simp
      ring
    have hvbound : |(top : ℚ) / (sH - cH) * 100 - (p : ℚ)| ≤ 50 / (sH - cH) := by
      rw [hv, abs_mul, abs_of_pos (by positivity : (0:ℚ) < 100 / (sH - cH))]
      have h1 : |(top : ℚ) - (p : ℚ) / 100 * (sH - cH)| ≤ 1 / 2 := by
        rw [abs_sub_comm]
        exact hround1
      calc |(top : ℚ) - (p : ℚ) / 100 * (sH - cH)| * (100 / (sH - cH))
          ≤ (1 / 2) * (100 / (sH - cH)) := by
            apply mul_le_mul_of_nonneg_right h1 (by positivity)
        _ = 50 / (sH - cH) := by ring
    have hcompute : computeScrollProgressPercent ((top : ℤ) : ℚ) sH cH
        = max 0 (min 100 (round ((top : ℚ) / (sH - cH) * 100))) := by
      unfold computeScrollProgressPercent
      simp only [clampProgress]
      rw [hdmax]
    rw [htopdef]
    constructor
    · intro hd100
      have hveq : round ((top : ℚ) / (sH - cH) * 100) = p := by
        rcases eq_or_lt_of_le hd100 with heq | hlt
        · have hde : sH - cH = 100 := heq.symm
          have htopp : top = p := by
            rw [htop, hde]
            have : ((p : ℤ) : ℚ) / 100 * 100 = ((p : ℤ) : ℚ) := by field_simp
            rw [this, round_intCast]
          rw [htopp, hde]
          have : ((p : ℤ) : ℚ) / 100 * 100 = ((p : ℤ) : ℚ) := by field_simp
          rw [this, round_intCast]
        · have hstrict : 50 / (sH - cH) < 1 / 2 := by
            rw [div_lt_iff₀ hdpos]
            linarith
          have habs : |(top : ℚ) / (sH - cH) * 100 - (p : ℚ)| < 1 / 2 :=
            lt_of_le_of_lt hvbound hstrict
          rw [abs_lt] at habs
          rw [round_eq]
          have : (p : ℚ) ≤ (top : ℚ) / (sH - cH) * 100 + 1 / 2 ∧
              (top : ℚ) / (sH - cH) * 100 + 1 / 2 < (p : ℚ) + 1 := by
            constructor <;> linarith [habs.1, habs.2]
          rw [Int.floor_eq_iff.mpr ⟨this.1, this.2⟩]
      rw [hcompute, hveq]
      omega
    · have hroundv : |((top : ℚ) / (sH - cH) * 100)
          - ((round ((top : ℚ) / (sH - cH) * 100) : ℤ) : ℚ)| ≤ 1 / 2 :=
        abs_sub_round _
      have hr0 : |((round ((top : ℚ) / (sH - cH) * 100) : ℤ) : ℚ) - (p : ℚ)|
          ≤ 1 / 2 + 50 / (sH - cH) := by
        calc |((round ((top : ℚ) / (sH - cH) * 100) : ℤ) : ℚ) - (p : ℚ)|
            ≤ |((round ((top : ℚ) / (sH - cH) * 100) : ℤ) : ℚ)
                - ((top : ℚ) / (sH - cH) * 100)|
              + |((top : ℚ) / (sH - cH) * 100) - (p : ℚ)| := abs_sub_le _ _ _
          _ ≤ 1 / 2 + 50 / (sH - cH) := by
              refine add_le_add ?_ hvbound
              rw [abs_sub_comm]
              exact hroundv
      rw [hcompute]
      have hcast : ((max 0 (min 100 (round ((top : ℚ) / (sH - cH) * 100))) : ℤ) : ℚ)
          = max 0 (min 100 ((round ((top : ℚ) / (sH - cH) * 100) : ℤ) : ℚ)) := by
        push_cast
        rfl
      rw [hcast]
      refine le_trans (clamp_abs_le ?_ ?_) hr0
      · exact_mod_cast hp0
      · exact_mod_cast hp100

/-! ## The background `pageProgress` handler (background.js:245-276)

A page record as the background script stores it (the fields the handlers
touch).  A record read for a URL that has none is `{}` — every field absent,
modelled by the defaults below.  The handler also keeps chapter progress of
materials containing the URL in sync (background.js:265-272); that part is
outside the page record and not modelled here. -/

structure PageRec where
  progress : Option ℤ
  title : String
  updatedAt : ℤ
  ignoreScrollProgress : Option Bool
  status : Option String
deriving DecidableEq, Repr

/-- The record `data.pages[url] || {}` reads when the URL has no record. -/
def emptyPageRec : PageRec := ⟨none, "", 0, none, none⟩

/-- The `pageProgress` message handler's effect on the pages store
(background.js:245-263): nothing on an invalid URL; otherwise the record is
replaced by the spread `{ ...existing, ...(ignore ? {} : {progress}), title:
title || existing.title || "", updatedAt: now }`.  `ignore` is
`existing.ignoreScrollProgress === true`. -/
def handlePageProgress (url : Option String) (progress : Option ℚ) (title : String)
    (now : ℤ) (pages : String → Option PageRec) : (String → Option PageRec) × Bool :=
  match url with
  | none => (pages, false)
  | some u =>
      let p := clampProgress progress
      let existing := (pages u).getD emptyPageRec
      let updated : PageRec :=
        { progress := if existing.ignoreScrollProgress = some true
                      then existing.progress else some p
          title := if title ≠ "" then title else existing.title
          updatedAt := now
          ignoreScrollProgress := existing.ignoreScrollProgress
          status := existing.status }
      (fun s => if s = u then some updated else pages s, true)

/-! ## Claim C10 -/

/-- C10: for every `pageProgress` message with a valid URL, when the stored
record's `ignoreScrollProgress` is true the stored progress value is left
unchanged while title and `updatedAt` are still updated; when the flag is
absent or false the stored progress becomes the clamped incoming value.  The
record's other fields (`status`, `ignoreScrollProgress`) are preserved in both
cases, the incoming title only replaces a nonempty existing title when it is
itself nonempty, and every other URL's record is untouched. -/
theorem C10_page_progress_ignore_flag (u : String) (progress : Option ℚ) (title : String)
    (now : ℤ) (pages : String → Option PageRec) :
    (∃ updated, (handlePageProgress (some u) progress title now pages).1 u = some updated
      ∧ (((pages u).getD emptyPageRec).ignoreScrollProgress = some true →
          updated.progress = ((pages u).getD emptyPageRec).progress)
      ∧ (((pages u).getD emptyPageRec).ignoreScrollProgress ≠ some true →
          updated.progress = some (clampProgress progress))
      ∧ updated.title = (if title ≠ "" then title else ((pages u).getD emptyPageRec).title)
      ∧ updated.updatedAt = now
      ∧ updated.ignoreScrollProgress = ((pages u).getD emptyPageRec).ignoreScrollProgress
      ∧ updated.status = ((pages u).getD emptyPageRec).status)
    ∧ (∀ v, v ≠ u → (handlePageProgress (some u) progress title now pages).1 v = pages v) := by
  constructor
  · refine ⟨{ progress := if ((pages u).getD emptyPageRec).ignoreScrollProgress = some true
                then ((pages u).getD emptyPageRec).progress
                else some (clampProgress progress),
              title := if title ≠ "" then title else ((pages u).getD emptyPageRec).title,
              updatedAt := now,
              ignoreScrollProgress := ((pages u).getD emptyPageRec).ignoreScrollProgress,
              status := ((pages u).getD emptyPageRec).status },
      ?_, ?_, ?_, rfl, rfl, rfl, rfl⟩
    · simp only [handlePageProgress]
      rw [if_pos trivial]
    · intro h
      simp [h]
    · intro h
      simp [h]
  · intro v hv
    simp only [handlePageProgress]
    rw [if_neg hv]

end ReadingCompanion
